import Mathlib

/-!
# Verification of the Statify descriptive-statistics engine

Shallow embedding of the statistics core of the repository:
`src/assets/js/calculator.js` (object `StatCalculator`) and
`src/utils/statistics.js` (class `Statistics`).

Modelling conventions:
* JavaScript numbers are modelled as exact rationals (`ℚ`).  The special
  values `NaN` and `±Infinity` are represented explicitly by the `JsVal`
  type where the code can produce them (parsing).  IEEE-754 artifacts
  (rounding of arithmetic, overflow of huge literals to `Infinity`,
  exponential `toString` notation beyond `1e21`) are outside the model.
* Strings are `List Char` internally; the API-level functions take
  `String` like the JS functions do.
* `Array.prototype.sort((a, b) => a - b)` is a stable ascending numeric
  sort; it is modelled by `List.insertionSort (· ≤ ·)`, which is also a
  stable ascending sort, hence extensionally equal.
* `Math.sqrt` produces irrational reals; it is modelled with `Real.sqrt`
  (the only noncomputable part of the development).
-/

namespace Statify

/-- A JavaScript number value as produced by `parseFloat` / `Number`:
a finite value (exact rational in this model), `Infinity` / `-Infinity`
(`inf true` / `inf false`), or `NaN`. -/
inductive JsVal where
  | num (q : ℚ)
  | inf (pos : Bool)
  | nan
deriving DecidableEq, Repr

/-- The separator class of the split regex `/[,\s;]+/` in
`parseInput`: comma, semicolon, or (ASCII) whitespace.  (`\s` also
matches some Unicode space characters; those are outside the model.) -/
def isDelim (c : Char) : Bool :=
  c = ',' || c = ';' || c = ' ' || c = '\t' || c = '\n' || c = '\r' ||
  c = '\x0b' || c = '\x0c'

/-- Dropping a prefix does not lengthen a list. -/
theorem dropWhile_length_le (p : Char → Bool) (l : List Char) :
    (l.dropWhile p).length ≤ l.length := by
  induction l with
  | nil => simp
  | cons a l ih =>
    simp only [List.dropWhile]
    split
    · exact Nat.le_succ_of_le ih
    · simp

/-- Worker for `jsSplit`: `cur` is the (reversed) token being read.
On a separator character the current token is emitted and the rest of
the separator run is skipped, exactly as the regex `[,\s;]+` consumes a
maximal run. -/
def jsSplitGo : List Char → List Char → List (List Char)
  | [], cur => [cur.reverse]
  | c :: rest, cur =>
    if isDelim c then
      cur.reverse :: jsSplitGo (rest.dropWhile isDelim) []
    else
      jsSplitGo rest (c :: cur)
termination_by l _ => l.length
decreasing_by
  · have := dropWhile_length_le isDelim rest
    simp only [List.length_cons]
    omega
  · simp

/-- `str.split(/[,\s;]+/)`: split on maximal runs of separator
characters.  Like the JS `split`, a leading or trailing run produces an
empty token (later discarded by the `filter`). -/
def jsSplit (s : List Char) : List (List Char) :=
  jsSplitGo s []

/-- `String.prototype.trim()`: strip leading and trailing whitespace
(tokens produced by `jsSplit` never contain whitespace, so this is the
identity there, as in the JS pipeline). -/
def jsTrim (l : List Char) : List Char :=
  ((l.dropWhile isDelim).reverse.dropWhile isDelim).reverse

/-- Decimal digit test (`[0-9]`). -/
def isDigitCh (c : Char) : Bool := '0' ≤ c && c ≤ '9'

/-- Numeric value of a decimal digit character. -/
def digitVal (c : Char) : ℕ := c.toNat - '0'.toNat

/-- Value of a list of decimal digit characters, most significant
first. -/
def digitsToNat (l : List Char) : ℕ :=
  l.foldl (fun acc c => 10 * acc + digitVal c) 0

/-- Exponent part of a JS decimal literal: `e`/`E`, optional sign,
at least one digit.  Returns the exponent and the unconsumed rest; if
the exponent part is malformed it is not consumed at all (longest valid
prefix semantics of `parseFloat`). -/
def parseExponent (l : List Char) : ℤ × List Char :=
  match l with
  | 'e' :: rest => parseExponentAfterE rest l
  | 'E' :: rest => parseExponentAfterE rest l
  | _ => (0, l)
where
  /-- After the `e`: optional sign then digits; `orig` is the input
  including the `e`, returned unconsumed when no digit follows. -/
  parseExponentAfterE (rest orig : List Char) : ℤ × List Char :=
    let (sign, rest') :=
      match rest with
      | '+' :: r => ((1 : ℤ), r)
      | '-' :: r => ((-1 : ℤ), r)
      | r => ((1 : ℤ), r)
    let ds := rest'.takeWhile isDigitCh
    if ds = [] then (0, orig)
    else (sign * digitsToNat ds, rest'.dropWhile isDigitCh)

/-- The unsigned part of `parseFloat`'s grammar
(`StrUnsignedDecimalLiteral`): either the literal `Infinity`, or
`digits [. digits] [exp]`, or `. digits [exp]`.  Longest valid prefix;
`nan` when no prefix matches.  (In this exact model a parsed literal is
always finite; JS float overflow to `Infinity` is not modelled.) -/
def parseUnsigned (l : List Char) : JsVal :=
  if l.take 8 = "Infinity".data then .inf true
  else
    match l.takeWhile isDigitCh, l.dropWhile isDigitCh with
    | [], '.' :: rest' =>
      -- ". digits" form: requires at least one fractional digit
      let fs := rest'.takeWhile isDigitCh
      if fs = [] then .nan
      else
        let (e, _) := parseExponent (rest'.dropWhile isDigitCh)
        .num ((digitsToNat fs : ℚ) / 10 ^ fs.length * 10 ^ e)
    | [], _ => .nan
    | ds, '.' :: rest' =>
      -- "digits . [digits]" form
      let fs := rest'.takeWhile isDigitCh
      let (e, _) := parseExponent (rest'.dropWhile isDigitCh)
      .num (((digitsToNat ds : ℚ) + (digitsToNat fs : ℚ) / 10 ^ fs.length) * 10 ^ e)
    | ds, rest =>
      -- "digits [exp]" form
      let (e, _) := parseExponent rest
      .num ((digitsToNat ds : ℚ) * 10 ^ e)

/-- `parseFloat(s)` on an already-trimmed string: optional sign, then
the unsigned literal; `NaN` when nothing parses. -/
def jsParseFloat (l : List Char) : JsVal :=
  match l with
  | [] => parseUnsigned []
  | c :: rest =>
    if c = '+' then parseUnsigned rest
    else if c = '-' then
      match parseUnsigned rest with
      | .num q => .num (-q)
      | .inf b => .inf !b
      | .nan => .nan
    else parseUnsigned (c :: rest)

/-- The `filter(v => !isNaN(v) && isFinite(v))` predicate. -/
def isFiniteVal : JsVal → Bool
  | .num _ => true
  | _ => false

/-- `StatCalculator.parseInput` (calculator.js): split on `[,\s;]+`,
trim each token, drop empties, `parseFloat` each token, keep finite
values.  Null / non-string input returns `[]`; the empty string hits
the `!input` early return. -/
def parseInput (input : String) : List ℚ :=
  if input = "" then []
  else
    let values := jsSplit input.data
    let trimmed := values.map jsTrim
    let nonEmpty := trimmed.filter (· ≠ [])
    let parsed := nonEmpty.map jsParseFloat
    let finite := parsed.filter isFiniteVal
    finite.filterMap (fun v => match v with | .num q => some q | _ => none)

/-! ## Central tendency & dispersion (calculator.js / statistics.js) -/

/-- `[...data].sort((a, b) => a - b)`: stable ascending numeric sort,
modelled by insertion sort (also stable and ascending). -/
def sortQ (l : List ℚ) : List ℚ := l.insertionSort (· ≤ ·)

/-- `StatCalculator.calculateMean`: sum via `reduce` divided by the
length; `null` for an empty array. -/
def calculateMean (data : List ℚ) : Option ℚ :=
  if data = [] then none
  else
    let sum := data.foldl (fun acc val => acc + val) 0
    some (sum / data.length)

/-- `StatCalculator.calculateMedian`: sort a copy ascending; middle
element for odd length, average of the two central elements for even
length.  (`sorted[i]` is in bounds at every use; `getD _ 0` is the
bounds-free rendering of the JS index access.) -/
def calculateMedian (data : List ℚ) : Option ℚ :=
  if data = [] then none
  else
    let sorted := sortQ data
    let mid := sorted.length / 2
    if sorted.length % 2 = 0 then
      some ((sorted.getD (mid - 1) 0 + sorted.getD mid 0) / 2)
    else
      some (sorted.getD mid 0)

/-- An entry of the array returned by `calculateMode`: the JS array
holds either the sentinel string `'No mode'` or numbers. -/
inductive ModeEntry where
  | str (s : String)
  | num (q : ℚ)
deriving DecidableEq, Repr

/-- The distinct values of `data` in order of first occurrence: the
insertion order of the keys of the JS `frequency` object. -/
def distinctVals (data : List ℚ) : List ℚ :=
  data.foldl (fun acc v => if v ∈ acc then acc else acc ++ [v]) []

/-- The running maximum `maxFreq` after the counting loop: the largest
final frequency of any value of `data` (`0` for empty data). -/
def maxFreq (data : List ℚ) : ℕ :=
  ((distinctVals data).map (fun v => data.count v)).foldl max 0

/-- A number whose string form is a JS array index: a canonical integer
string `i` with `0 ≤ i < 2^32 - 1`.  Such keys enumerate first. -/
def isArrayIndexKey (q : ℚ) : Bool :=
  q.den = 1 && 0 ≤ q.num && q.num < 2 ^ 32 - 1

/-- `Object.keys` enumeration order for the `frequency` object built
from the given keys (in insertion order): array-index keys in ascending
numeric order first, then the remaining keys in insertion order. -/
def objectKeys (keys : List ℚ) : List ℚ :=
  (keys.filter isArrayIndexKey).insertionSort (· ≤ ·) ++
    keys.filter (fun v => !isArrayIndexKey v)

/-- `StatCalculator.calculateMode` (calculator.js): count frequencies;
if the maximum frequency is 1 return `['No mode']`; otherwise filter
`Object.keys(frequency)` (in its enumeration order) by maximal
frequency and map back to numbers (`parseFloat` of `String(v)` is `v`
in this model). -/
def calculateMode (data : List ℚ) : Option (List ModeEntry) :=
  if data = [] then none
  else
    let m := maxFreq data
    if m = 1 then some [.str "No mode"]
    else
      some (((objectKeys (distinctVals data)).filter
        (fun v => data.count v = m)).map .num)

/-- `Statistics.calculateMode` (statistics.js): same, but the modes are
finally sorted with `.sort((a, b) => a - b)`. -/
def statsCalculateMode (data : List ℚ) : Option (List ModeEntry) :=
  if data = [] then none
  else
    let m := maxFreq data
    if m = 1 then some [.str "No mode"]
    else
      some ((((objectKeys (distinctVals data)).filter
        (fun v => data.count v = m)).insertionSort (· ≤ ·)).map .num)

/-- `StatCalculator.calculateVariance`: mean of squared deviations,
divided by `n` (population) or `n - 1` (sample); `null` for empty data
and for a sample variance of fewer than 2 points. -/
def calculateVariance (data : List ℚ) (isPopulation : Bool) : Option ℚ :=
  if data = [] then none
  else if !isPopulation && data.length < 2 then none
  else
    let mean := (calculateMean data).getD 0   -- always `some` here
    let squaredDiffs := data.map (fun val => (val - mean) ^ 2)
    let sumSquaredDiffs := squaredDiffs.foldl (fun acc val => acc + val) 0
    let divisor : ℚ := if isPopulation then data.length else data.length - 1
    some (sumSquaredDiffs / divisor)

/-- `StatCalculator.calculateStdDev`: `Math.sqrt` of the variance,
`null` when the variance is `null`. -/
noncomputable def calculateStdDev (data : List ℚ) (isPopulation : Bool) :
    Option ℝ :=
  (calculateVariance data isPopulation).map (fun v => Real.sqrt (v : ℝ))

/-! ## Quartiles -/

/-- The object `{ q1, q2, q3 }` returned by `calculateQuartiles`; each
field can be `null` (median of an empty half). -/
structure QuartileSet where
  q1 : Option ℚ
  q2 : Option ℚ
  q3 : Option ℚ
deriving DecidableEq, Repr

/-- `StatCalculator.calculateQuartiles`: sort ascending; `q2` is the
median of the whole sorted array; `q1` the median of
`sorted.slice(0, floor(n/2))`; `q3` the median of `sorted.slice(s)`
with `s = n/2` for even `n` and `floor(n/2) + 1` for odd `n`. -/
def calculateQuartiles (data : List ℚ) : Option QuartileSet :=
  if data = [] then none
  else
    let sorted := sortQ data
    let n := sorted.length
    let q2 := calculateMedian sorted
    let lowerHalf := sorted.take (n / 2)
    let q1 := calculateMedian lowerHalf
    let upperStart := if n % 2 = 0 then n / 2 else n / 2 + 1
    let upperHalf := sorted.drop upperStart
    let q3 := calculateMedian upperHalf
    some ⟨q1, q2, q3⟩

/-- `StatCalculator.calculateIQR`: `quartiles.q3 - quartiles.q1`, or
`null` when there are no quartiles.  A `null` operand of the JS `-`
operator coerces to `0`, rendered here by `getD 0`. -/
def calculateIQR (data : List ℚ) : Option ℚ :=
  (calculateQuartiles data).map (fun qs => qs.q3.getD 0 - qs.q1.getD 0)

/-! ## Class width (Sturges' rule) -/

/-- `Math.min(...data)`. -/
def listMin : List ℚ → Option ℚ
  | [] => none
  | x :: xs => some (xs.foldl min x)

/-- `Math.max(...data)`. -/
def listMax : List ℚ → Option ℚ
  | [] => none
  | x :: xs => some (xs.foldl max x)

/-- Linear search upward from `j`: the first index at which `p` holds,
or `j + fuel` if none is found within the fuel. -/
def findUp (p : ℕ → Bool) : ℕ → ℕ → ℕ
  | j, 0 => j
  | j, fuel + 1 => if p j then j else findUp p (j + 1) fuel

/-- `j` satisfies `sturgesP n j` iff `3.322 * log10 n ≤ j`, i.e.
`1661 * log10 n ≤ 500 * j`, i.e. `n ^ 1661 ≤ 10 ^ (500 * j)`. -/
def sturgesP (n : ℕ) (j : ℕ) : Bool := n ^ 1661 ≤ 10 ^ (500 * j)

/-- `Math.ceil(1 + 3.322 * Math.log10(n))`, computed exactly: the
ceiling is `1 +` the least `j` with `3.322 * log10 n ≤ j` (see
`sturges_eq` for the proof that this matches the real-valued formula;
`2 * n` fuel always suffices). -/
def sturges (n : ℕ) : ℕ := 1 + findUp (sturgesP n) 0 (2 * n)

/-- `StatCalculator.calculateClassWidth` (calculator.js): range divided
by the class count, rounded *up* to 2 decimal places
(`Math.ceil(rawWidth * 100) / 100`).  The class count defaults to
`null` (`none`); a missing or `< 1` (or falsy `0`) count is replaced by
Sturges' value. -/
def calculateClassWidth (data : List ℚ) (numClasses : Option ℚ) : Option ℚ :=
  if data = [] then none
  else
    let min := (listMin data).getD 0   -- always `some` here
    let max := (listMax data).getD 0
    let range := max - min
    let nc : ℚ :=
      match numClasses with
      | none => (sturges data.length : ℚ)
      | some c => if c < 1 then (sturges data.length : ℚ) else c
    some ((⌈range / nc * 100⌉ : ℚ) / 100)

/-- `Statistics.calculateClassWidth` (statistics.js): identical
computation, but the *default parameter* for an absent class count is
`5`, so Sturges' rule only triggers for an explicit falsy or `< 1`
argument. -/
def statsCalculateClassWidth (data : List ℚ) (numClasses : Option ℚ) :
    Option ℚ :=
  let nc0 : ℚ := numClasses.getD 5    -- `numClasses = 5` default parameter
  if data = [] then none
  else
    let min := (listMin data).getD 0
    let max := (listMax data).getD 0
    let range := max - min
    let nc : ℚ := if nc0 < 1 then (sturges data.length : ℚ) else nc0
    some ((⌈range / nc * 100⌉ : ℚ) / 100)

/-! ## Number formatting -/

/-- The character of a decimal digit `d < 10`. -/
def digitChar (d : ℕ) : Char := Char.ofNat ('0'.toNat + d)

/-- Decimal digits of `n`, most significant first (the canonical JS
integer `toString` for values below `1e21`). -/
def natToDigits (n : ℕ) : List Char :=
  if n < 10 then [digitChar n]
  else natToDigits (n / 10) ++ [digitChar (n % 10)]
termination_by n
decreasing_by
  exact Nat.div_lt_self (by omega) (by omega)

/-- `String(z)` for an integer `z`. -/
def renderInt (z : ℤ) : List Char :=
  (if z < 0 then ['-'] else []) ++ natToDigits z.natAbs

/-- Number of trailing decimal zeros of `n`, for `n` not divisible by
`10 ^ 4` (so the result is at most 3). -/
def trailingZeros (n : ℕ) : ℕ :=
  if n % 10 ≠ 0 then 0
  else if n % 100 ≠ 0 then 1
  else if n % 1000 ≠ 0 then 2
  else 3

/-- The decimal string of the value `n / 10^4` (for `n` not divisible
by `10^4`) with trailing fractional zeros stripped: the result of
`parseFloat(x.toFixed(4)).toString()` in the non-integral case. -/
def renderFixed4 (n : ℤ) : List Char :=
  let t := trailingZeros n.natAbs
  let k := 4 - t                         -- fractional digits kept, ≥ 1
  let m := n.natAbs / 10 ^ t
  let ip := m / 10 ^ k
  let fp := m % 10 ^ k
  let fds := natToDigits fp
  (if n < 0 then ['-'] else []) ++ natToDigits ip ++ ['.'] ++
    (List.replicate (k - fds.length) '0' ++ fds)

/-- `x.toFixed(4)` as an exact rational: round to the nearest multiple
of `10^-4`, ties away from zero toward `+∞` ("pick the larger n"). -/
def round4 (q : ℚ) : ℚ := (⌊q * 10000 + 1 / 2⌋ : ℚ) / 10000

/-- `StatCalculator.formatNumber` with the default precision 4:
`null`/`undefined`/`NaN` renders as `null` (`NaN` is unrepresentable in
the exact model); an integer renders via `toString`; otherwise
`parseFloat(num.toFixed(4)).toString()` — the value rounded to 4
decimal places, trailing zeros stripped, an exactly-integral rounding
rendered as an integer. -/
def formatNumber (num : Option ℚ) : Option String :=
  match num with
  | none => none
  | some q =>
    if q.den = 1 then some (String.mk (renderInt q.num))  -- Number.isInteger
    else
      let n := ⌊q * 10000 + 1 / 2⌋                        -- toFixed(4)
      if n % 10000 = 0 then some (String.mk (renderInt (n / 10000)))
      else some (String.mk (renderFixed4 n))

/-- The body of `formatNumber (some q)` as a character list (used to
reason about the produced string). -/
def renderQ (q : ℚ) : List Char :=
  if q.den = 1 then renderInt q.num
  else
    let n := ⌊q * 10000 + 1 / 2⌋
    if n % 10000 = 0 then renderInt (n / 10000)
    else renderFixed4 n

/-! ## Strict `Number()` conversion (statistics.js `parseInput`) -/

/-- Hexadecimal digit test. -/
def isHexDigit (c : Char) : Bool :=
  isDigitCh c || ('a' ≤ c && c ≤ 'f') || ('A' ≤ c && c ≤ 'F')

/-- Value of a hexadecimal digit. -/
def hexVal (c : Char) : ℕ :=
  if isDigitCh c then digitVal c
  else if 'a' ≤ c && c ≤ 'f' then c.toNat - 'a'.toNat + 10
  else c.toNat - 'A'.toNat + 10

/-- Value of a digit list in base `b` with digit valuation `val`. -/
def digitsToNatBase (b : ℕ) (val : Char → ℕ) (l : List Char) : ℕ :=
  l.foldl (fun acc c => b * acc + val c) 0

/-- A whole-string exponent part: empty, or `e`/`E` sign? digits with
nothing left over. -/
def parseExpWhole (l : List Char) : Option ℤ :=
  match l with
  | [] => some 0
  | 'e' :: rest => parseExpWholeAfterE rest
  | 'E' :: rest => parseExpWholeAfterE rest
  | _ => none
where
  /-- Optional sign then digits consuming the whole rest. -/
  parseExpWholeAfterE (rest : List Char) : Option ℤ :=
    let (sign, rest') :=
      match rest with
      | '+' :: r => ((1 : ℤ), r)
      | '-' :: r => ((-1 : ℤ), r)
      | r => ((1 : ℤ), r)
    let ds := rest'.takeWhile isDigitCh
    if ds = [] ∨ rest'.dropWhile isDigitCh ≠ [] then none
    else some (sign * digitsToNat ds)

/-- A whole-string unsigned decimal literal:
`digits [. digits] [exp]` or `. digits [exp]`, consuming everything. -/
def parseDecimalWhole (l : List Char) : Option ℚ :=
  let ds := l.takeWhile isDigitCh
  let rest := l.dropWhile isDigitCh
  match ds, rest with
  | [], '.' :: rest' =>
    let fs := rest'.takeWhile isDigitCh
    if fs = [] then none
    else
      match parseExpWhole (rest'.dropWhile isDigitCh) with
      | some e => some ((digitsToNat fs : ℚ) / 10 ^ fs.length * 10 ^ e)
      | none => none
  | [], _ => none
  | _, '.' :: rest' =>
    let fs := rest'.takeWhile isDigitCh
    match parseExpWhole (rest'.dropWhile isDigitCh) with
    | some e =>
      some (((digitsToNat ds : ℚ) + (digitsToNat fs : ℚ) / 10 ^ fs.length) * 10 ^ e)
    | none => none
  | _, _ =>
    match parseExpWhole rest with
    | some e => some ((digitsToNat ds : ℚ) * 10 ^ e)
    | none => none

/-- A whole string of digits of the given base (nonempty), or `NaN`. -/
def parseRadixWhole (digit : Char → Bool) (b : ℕ) (val : Char → ℕ)
    (l : List Char) : JsVal :=
  if l ≠ [] ∧ l.all digit then .num (digitsToNatBase b val l)
  else .nan

/-- `Number(s)` for a trimmed string `s` (the implicit coercion done by
`isNaN(val)` and the explicit `Number(val)` in statistics.js): the
*whole* string must be a numeric literal — empty string is `0`, hex /
octal / binary forms carry no sign, otherwise an optional sign followed
by `Infinity` or a decimal literal; anything else is `NaN`.  (Float
overflow of huge literals is not modelled.) -/
def jsNumber (l : List Char) : JsVal :=
  match l with
  | [] => .num 0
  | '0' :: 'x' :: ds => parseRadixWhole isHexDigit 16 hexVal ds
  | '0' :: 'X' :: ds => parseRadixWhole isHexDigit 16 hexVal ds
  | '0' :: 'o' :: ds => parseRadixWhole (fun c => '0' ≤ c && c ≤ '7') 8 digitVal ds
  | '0' :: 'O' :: ds => parseRadixWhole (fun c => '0' ≤ c && c ≤ '7') 8 digitVal ds
  | '0' :: 'b' :: ds => parseRadixWhole (fun c => c = '0' || c = '1') 2 digitVal ds
  | '0' :: 'B' :: ds => parseRadixWhole (fun c => c = '0' || c = '1') 2 digitVal ds
  | _ =>
    let (neg, rest) :=
      match l with
      | '+' :: r => (false, r)
      | '-' :: r => (true, r)
      | r => (false, r)
    if rest = "Infinity".data then .inf !neg
    else
      match parseDecimalWhole rest with
      | some q => .num (if neg then -q else q)
      | none => .nan

/-- `Statistics.parseInput` (statistics.js) on a string input: split on
`[,\s;]+`, trim, and for each token `val` keep `Number(val)` whenever
`val !== ''` and `!isNaN(val)` — with **no** finiteness filter, so an
`Infinity` token's value is pushed. -/
def statsParseInput (input : String) : List JsVal :=
  if input = "" then []    -- `if (!input) return []`
  else
    ((jsSplit input.data).map jsTrim).filterMap (fun val =>
      if val ≠ [] then
        match jsNumber val with
        | .nan => none     -- `isNaN(val)`
        | v => some v      -- `numbers.push(Number(val))`
      else none)

/-! ## Basic stats and the `calculateAll` entry point -/

/-- The record returned by `getBasicStats`. -/
structure BasicStats where
  count : ℕ
  sum : ℚ
  min : ℚ
  max : ℚ
  range : ℚ
deriving DecidableEq, Repr

/-- `StatCalculator.getBasicStats`: count, sum, `Math.min(...data)`,
`Math.max(...data)` and range; `null` for empty data. -/
def getBasicStats (data : List ℚ) : Option BasicStats :=
  if data = [] then none
  else
    let min := (listMin data).getD 0   -- always `some` here
    let max := (listMax data).getD 0
    let range := max - min
    let sum := data.foldl (fun acc val => acc + val) 0
    some ⟨data.length, sum, min, max, range⟩

/-- The full record assembled by `calculateAll` (field per field as in
the JS object literal).  The two standard deviations are stored as
their exact real values; the JS code formats their floating-point
approximations, which an exact model cannot render to a decimal
string — every *other* formatted field matches the JS string. -/
structure AllStats where
  count : ℕ
  sum : Option String
  min : Option String
  max : Option String
  range : Option String
  mean : Option String
  median : Option String
  mode : Option (List ModeEntry)
  variancePopulation : Option String
  varianceSample : Option String
  stdDevPopulation : Option ℝ
  stdDevSample : Option ℝ
  q1 : Option String
  q2 : Option String
  q3 : Option String
  iqr : Option String
  classWidth : Option String
  numClasses : ℚ
  rawData : List ℚ

/-- Result of `calculateAll`: either the explicit error object
`{ error: 'No valid data provided' }` or the statistics record. -/
inductive AllResult where
  | error (msg : String)
  | ok (stats : AllStats)

/-- `StatCalculator.calculateAll` (default `numClasses = 5`): returns
the error marker object for empty data, otherwise the complete record.
The function is total — no exception escapes on any input. -/
noncomputable def calculateAll (data : List ℚ) (numClasses : ℚ) : AllResult :=
  if data = [] then .error "No valid data provided"
  else
    let basic := (getBasicStats data).getD ⟨0, 0, 0, 0, 0⟩  -- always `some` here
    let quartiles := calculateQuartiles data
    .ok
      { count := basic.count
        sum := formatNumber (some basic.sum)
        min := formatNumber (some basic.min)
        max := formatNumber (some basic.max)
        range := formatNumber (some basic.range)
        mean := formatNumber (calculateMean data)
        median := formatNumber (calculateMedian data)
        mode := calculateMode data
        variancePopulation := formatNumber (calculateVariance data true)
        varianceSample := formatNumber (calculateVariance data false)
        stdDevPopulation := calculateStdDev data true
        stdDevSample := calculateStdDev data false
        q1 := match quartiles with | some qs => formatNumber qs.q1 | none => none
        q2 := match quartiles with | some qs => formatNumber qs.q2 | none => none
        q3 := match quartiles with | some qs => formatNumber qs.q3 | none => none
        iqr := formatNumber (calculateIQR data)
        classWidth := formatNumber (calculateClassWidth data (some numClasses))
        numClasses := numClasses
        rawData := data }

/-! ## Basic lemmas about the sort model -/

theorem sortQ_length (l : List ℚ) : (sortQ l).length = l.length :=
  List.length_insertionSort (r := (· ≤ ·)) l

theorem sortQ_perm (l : List ℚ) : List.Perm (sortQ l) l :=
  List.perm_insertionSort _ l

theorem sortQ_sorted (l : List ℚ) : List.Sorted (· ≤ ·) (sortQ l) :=
  List.sorted_insertionSort _ l

/-- Sorting an already sorted list is the identity, so the sort is
idempotent. -/
theorem sortQ_idem (l : List ℚ) : sortQ (sortQ l) = sortQ l :=
  List.eq_of_perm_of_sorted (sortQ_perm (sortQ l)) (sortQ_sorted _) (sortQ_sorted _)

theorem sortQ_eq_nil_iff (l : List ℚ) : sortQ l = [] ↔ l = [] := by
  rw [← List.length_eq_zero, ← List.length_eq_zero, sortQ_length]

/-! ## C1: quartiles by the exclusive-median-halves method -/

/-- C1: on the sample `[1,2,3,4,5,6,7,8]` the quartiles are
`Q1 = 2.5`, `Q2 = 4.5`, `Q3 = 6.5` and the IQR is `4`; and in general
the quartile operation takes `Q1` as the median of the sorted elements
strictly before index `⌊n/2⌋`, `Q2` as the median of the whole sorted
sample, and `Q3` as the median of the elements from index `n/2` (even
`n`) resp. `⌊n/2⌋ + 1` (odd `n`) onward. -/
theorem quartiles_exclusive_halves :
    calculateQuartiles [1, 2, 3, 4, 5, 6, 7, 8] =
      some ⟨some (5/2), some (9/2), some (13/2)⟩ ∧
    calculateIQR [1, 2, 3, 4, 5, 6, 7, 8] = some 4 ∧
    ∀ data : List ℚ, data ≠ [] →
      calculateQuartiles data =
        some { q1 := calculateMedian ((sortQ data).take (data.length / 2)),
               q2 := calculateMedian (sortQ data),
               q3 := calculateMedian ((sortQ data).drop
                 (if data.length % 2 = 0 then data.length / 2
                  else data.length / 2 + 1)) } := by
  refine ⟨?_, ?_, fun data h => ?_⟩
  · norm_num [calculateQuartiles, calculateMedian, sortQ, List.insertionSort,
      List.orderedInsert, List.getD, List.cons_ne_nil]
  · norm_num [calculateIQR, calculateQuartiles, calculateMedian, sortQ,
      List.insertionSort, List.orderedInsert, List.getD, List.cons_ne_nil]
  · simp only [calculateQuartiles, if_neg h, sortQ_length]

/-- Witness for the general conjunct of `quartiles_exclusive_halves`
at the concrete sample `[1, 3, 2]`. -/
theorem quartiles_exclusive_halves_witness :
    ([1, 3, 2] : List ℚ) ≠ [] ∧
    calculateQuartiles [1, 3, 2] =
      some { q1 := calculateMedian ((sortQ [1, 3, 2]).take
               (([1, 3, 2] : List ℚ).length / 2)),
             q2 := calculateMedian (sortQ [1, 3, 2]),
             q3 := calculateMedian ((sortQ [1, 3, 2]).drop
               (if ([1, 3, 2] : List ℚ).length % 2 = 0
                then ([1, 3, 2] : List ℚ).length / 2
                else ([1, 3, 2] : List ℚ).length / 2 + 1)) } :=
  ⟨by decide, quartiles_exclusive_halves.2.2 [1, 3, 2] (by decide)⟩

/-! ## C10: quartiles and IQR of a one-element sample -/

/-- C10: on a single-element sample `[x]` both halves are empty, so
`q1` and `q3` are the null marker while `q2 = x`; nevertheless the IQR
is `0` (the JS subtraction coerces the two `null`s to `0`), not the
null marker. -/
theorem quartiles_iqr_singleton (x : ℚ) :
    calculateQuartiles [x] = some ⟨none, some x, none⟩ ∧
    calculateIQR [x] = some 0 := by
  constructor
  · simp [calculateQuartiles, calculateMedian, sortQ, List.insertionSort]
  · simp [calculateIQR, calculateQuartiles, calculateMedian, sortQ,
      List.insertionSort]

/-! ## C6: the median equals Q2 -/

/-- C6: for every non-empty sample, the `q2` field of the quartile
operation is exactly the median of the sample (sorting is idempotent,
so the median of the pre-sorted copy agrees with the median of the
data). -/
theorem median_eq_quartiles_q2 (data : List ℚ) (h : data ≠ []) :
    ∃ qs, calculateQuartiles data = some qs ∧
      qs.q2 = calculateMedian data := by
  have hs : sortQ data ≠ [] := by
    simpa [sortQ_eq_nil_iff] using h
  have hmed : calculateMedian (sortQ data) = calculateMedian data := by
    simp only [calculateMedian, if_neg h, if_neg hs, sortQ_idem]
  refine ⟨{ q1 := calculateMedian ((sortQ data).take ((sortQ data).length / 2)),
            q2 := calculateMedian (sortQ data),
            q3 := calculateMedian ((sortQ data).drop
              (if (sortQ data).length % 2 = 0 then (sortQ data).length / 2
               else (sortQ data).length / 2 + 1)) }, ?_, hmed⟩
  simp only [calculateQuartiles, if_neg h]

/-- Witness for `median_eq_quartiles_q2` at `[1, 2]`. -/
theorem median_eq_quartiles_q2_witness :
    ([1, 2] : List ℚ) ≠ [] ∧
    ∃ qs, calculateQuartiles [1, 2] = some qs ∧
      qs.q2 = calculateMedian [1, 2] :=
  ⟨by decide, median_eq_quartiles_q2 [1, 2] (by decide)⟩

/-! ## C4: population vs sample variance and standard deviation -/

/-- `reduce((a, b) => a + b, acc)` over nonnegative values, starting
from a nonnegative accumulator, is nonnegative. -/
theorem foldl_add_nonneg (l : List ℚ) (acc : ℚ) (hacc : 0 ≤ acc)
    (h : ∀ x ∈ l, 0 ≤ x) : 0 ≤ l.foldl (fun a v => a + v) acc := by
  induction l generalizing acc with
  | nil => simpa using hacc
  | cons a l ih =>
    simp only [List.foldl_cons]
    exact ih _ (add_nonneg hacc (h a (by simp))) fun x hx => h x (by simp [hx])

/-- C4: population variance is defined for every non-empty sample and
is `0` on a one-element sample; sample variance and sample standard
deviation are the null marker for fewer than 2 points; every defined
variance is nonnegative and its standard deviation is its nonnegative
square root; and on `[2,4,4,4,5,5,7,9]` the population variance is `4`
and the sample variance is `32/7 ≈ 4.571`. -/
theorem variance_stddev_spec :
    (∀ data : List ℚ, data ≠ [] → ∃ v, calculateVariance data true = some v) ∧
    (∀ x : ℚ, calculateVariance [x] true = some 0) ∧
    (∀ data : List ℚ, data.length < 2 →
      calculateVariance data false = none ∧ calculateStdDev data false = none) ∧
    (∀ (data : List ℚ) (isPop : Bool) (v : ℚ),
      calculateVariance data isPop = some v →
      0 ≤ v ∧ calculateStdDev data isPop = some (Real.sqrt (v : ℝ)) ∧
      0 ≤ Real.sqrt (v : ℝ) ∧ Real.sqrt (v : ℝ) ^ 2 = (v : ℝ)) ∧
    calculateVariance [2, 4, 4, 4, 5, 5, 7, 9] true = some 4 ∧
    calculateVariance [2, 4, 4, 4, 5, 5, 7, 9] false = some (32 / 7) := by
  refine ⟨?_, ?_, ?_, ?_, ?_, ?_⟩
  · intro data h
    exact ⟨(data.map fun val => (val - (calculateMean data).getD 0) ^ 2).foldl
        (fun acc val => acc + val) 0 / (data.length : ℚ),
      by rw [calculateVariance, if_neg h]; rfl⟩
  · intro x
    simp [calculateVariance, calculateMean]
  · intro data h
    by_cases hd : data = []
    · simp [calculateVariance, calculateStdDev, hd]
    · simp [calculateVariance, calculateStdDev, if_neg hd, h]
  · intro data isPop v hv
    by_cases hd : data = []
    · simp [calculateVariance, hd] at hv
    · have hv' := hv
      by_cases hc : (!isPop && decide (data.length < 2)) = true
      · rw [calculateVariance, if_neg hd, if_pos hc] at hv'
        exact absurd hv' (by simp)
      · simp only [calculateVariance, if_neg hd, hc, Bool.false_eq_true,
          if_false, Option.some.injEq] at hv'
        have hvnn : 0 ≤ v := by
          rw [← hv']
          apply div_nonneg
          · exact foldl_add_nonneg _ _ le_rfl fun x hx => by
              obtain ⟨y, -, rfl⟩ := List.mem_map.mp hx
              exact sq_nonneg _
          · rcases isPop with _ | _
            · simp only [Bool.false_eq_true, if_false]
              have h2 : 2 ≤ data.length := by
                by_contra hlt
                push_neg at hlt
                exact hc (by simp [hlt])
              have h2' : (2 : ℚ) ≤ (data.length : ℚ) := by exact_mod_cast h2
              linarith
            · simp only [if_pos rfl]
              exact Nat.cast_nonneg _
        refine ⟨hvnn, by simp [calculateStdDev, hv], Real.sqrt_nonneg _, ?_⟩
        exact Real.sq_sqrt (by exact_mod_cast hvnn)
  · norm_num [calculateVariance, calculateMean, List.cons_ne_nil]
  · norm_num [calculateVariance, calculateMean, List.cons_ne_nil]

/-- Witness for `variance_stddev_spec` at concrete inputs: `[3]` for
the definedness/undefinedness conjuncts and the variance value `0`. -/
theorem variance_stddev_spec_witness :
    (∃ v, calculateVariance [3] true = some v) ∧
    (calculateVariance [3] false = none ∧ calculateStdDev [3] false = none) ∧
    (0 ≤ (0 : ℚ) ∧ calculateStdDev [3] true = some (Real.sqrt ((0 : ℚ) : ℝ)) ∧
      0 ≤ Real.sqrt ((0 : ℚ) : ℝ) ∧
      Real.sqrt ((0 : ℚ) : ℝ) ^ 2 = ((0 : ℚ) : ℝ)) :=
  ⟨variance_stddev_spec.1 [3] (by decide),
   variance_stddev_spec.2.2.1 [3] (by decide),
   variance_stddev_spec.2.2.2.1 [3] true 0 (variance_stddev_spec.2.1 3)⟩

/-! ## C5: the compute-all entry point fails only on empty data -/

/-- C5: `calculateAll` returns the explicit error-marker record exactly
when the sample is empty, and for every non-empty sample it returns a
complete `ok` record.  The Lean model is a total function, mirroring
that the JS code never throws: every sub-computation it calls is
guarded for the non-empty case. -/
theorem calculateAll_error_iff :
    ∀ (data : List ℚ) (nc : ℚ),
      ((∃ msg, calculateAll data nc = .error msg) ↔ data = []) ∧
      (data ≠ [] → ∃ st, calculateAll data nc = .ok st) := by
  intro data nc
  by_cases hd : data = []
  · subst hd
    exact ⟨⟨fun _ => rfl, fun _ => ⟨_, rfl⟩⟩, fun h => absurd rfl h⟩
  · refine ⟨⟨?_, fun h => absurd h hd⟩, fun _ => ?_⟩
    · rintro ⟨msg, hmsg⟩
      rw [calculateAll, if_neg hd] at hmsg
      exact AllResult.noConfusion hmsg
    · rw [calculateAll, if_neg hd]
      exact ⟨_, rfl⟩

/-- Witness for `calculateAll_error_iff` at the sample `[1]`. -/
theorem calculateAll_error_iff_witness :
    (([1] : List ℚ) ≠ []) ∧ ∃ st, calculateAll [1] 5 = .ok st :=
  ⟨by decide, (calculateAll_error_iff [1] 5).2 (by decide)⟩

/-! ## C3: the mode operation -/

/-- Membership in the key-accumulation fold of `distinctVals`. -/
theorem mem_distinctVals_aux (data : List ℚ) :
    ∀ (acc : List ℚ) (v : ℚ),
      (v ∈ data.foldl (fun acc v => if v ∈ acc then acc else acc ++ [v]) acc ↔
        v ∈ acc ∨ v ∈ data) := by
  induction data with
  | nil => simp
  | cons a l ih =>
    intro acc v
    simp only [List.foldl_cons]
    by_cases ha : a ∈ acc
    · rw [if_pos ha, ih]
      constructor
      · rintro (h | h)
        · exact Or.inl h
        · exact Or.inr (by simp [h])
      · rintro (h | h)
        · exact Or.inl h
        · rcases List.mem_cons.mp h with rfl | h
          · exact Or.inl ha
          · exact Or.inr h
    · rw [if_neg ha, ih]
      simp only [List.mem_append, List.mem_singleton, List.mem_cons]
      tauto

/-- The distinct-value list contains exactly the values of the data. -/
theorem mem_distinctVals (data : List ℚ) (v : ℚ) :
    v ∈ distinctVals data ↔ v ∈ data := by
  rw [distinctVals, mem_distinctVals_aux]
  simp

/-- The key-accumulation fold preserves `Nodup`. -/
theorem distinctVals_aux_nodup (data : List ℚ) :
    ∀ acc : List ℚ, acc.Nodup →
      (data.foldl (fun acc v => if v ∈ acc then acc else acc ++ [v]) acc).Nodup := by
  induction data with
  | nil => exact fun _ h => h
  | cons a l ih =>
    intro acc h
    simp only [List.foldl_cons]
    by_cases ha : a ∈ acc
    · rw [if_pos ha]; exact ih acc h
    · rw [if_neg ha]
      refine ih _ ?_
      rw [List.nodup_append]
      refine ⟨h, List.nodup_singleton a, ?_⟩
      intro x hx hxa
      exact ha ((List.mem_singleton.mp hxa) ▸ hx)

/-- The distinct-value list has no duplicates (object keys are
unique). -/
theorem distinctVals_nodup (data : List ℚ) : (distinctVals data).Nodup :=
  distinctVals_aux_nodup data [] List.nodup_nil

/-- An upper bound for a `foldl max`. -/
theorem foldl_max_le {l : List ℕ} {b : ℕ} :
    ∀ {acc : ℕ}, acc ≤ b → (∀ x ∈ l, x ≤ b) → l.foldl max acc ≤ b := by
  induction l with
  | nil => intro acc ha _; simpa using ha
  | cons a l ih =>
    intro acc ha h
    simp only [List.foldl_cons]
    exact ih (max_le ha (h a (by simp))) fun x hx => h x (by simp [hx])

/-- The accumulator is below a `foldl max`. -/
theorem acc_le_foldl_max (l : List ℕ) : ∀ acc, acc ≤ l.foldl max acc := by
  induction l with
  | nil => simp
  | cons a l ih =>
    intro acc
    simp only [List.foldl_cons]
    exact le_trans (le_max_left _ _) (ih _)

/-- Every element is below a `foldl max`. -/
theorem le_foldl_max_of_mem {l : List ℕ} {x : ℕ} (hx : x ∈ l) :
    ∀ acc, x ≤ l.foldl max acc := by
  induction l with
  | nil => cases hx
  | cons a l ih =>
    intro acc
    rcases List.mem_cons.mp hx with rfl | h
    · exact le_trans (le_max_right _ _) (acc_le_foldl_max _ _)
    · exact ih h _

/-- A `foldl max` is the accumulator or a list element. -/
theorem foldl_max_acc_or_mem (l : List ℕ) :
    ∀ acc, l.foldl max acc = acc ∨ l.foldl max acc ∈ l := by
  induction l with
  | nil => simp
  | cons a l ih =>
    intro acc
    simp only [List.foldl_cons]
    rcases ih (max acc a) with h | h
    · rcases Nat.le_total acc a with hle | hle
      · right; rw [h, Nat.max_eq_right hle]; exact List.mem_cons_self a l
      · left; rw [h, Nat.max_eq_left hle]
    · right; exact List.mem_cons_of_mem _ h

/-- No value occurs more often than `maxFreq`. -/
theorem count_le_maxFreq {data : List ℚ} {v : ℚ} (hv : v ∈ data) :
    data.count v ≤ maxFreq data := by
  have hmem : data.count v ∈ (distinctVals data).map (fun v => data.count v) :=
    List.mem_map.mpr ⟨v, (mem_distinctVals data v).mpr hv, rfl⟩
  exact le_foldl_max_of_mem hmem 0

/-- `maxFreq` of a non-empty sample is at least 1. -/
theorem maxFreq_pos {data : List ℚ} (h : data ≠ []) : 1 ≤ maxFreq data := by
  obtain ⟨a, ha⟩ := List.exists_mem_of_ne_nil data h
  exact le_trans (List.count_pos_iff.mpr ha) (count_le_maxFreq ha)

/-- `maxFreq` is attained by some value of a non-empty sample. -/
theorem maxFreq_attained {data : List ℚ} (h : data ≠ []) :
    ∃ v ∈ data, data.count v = maxFreq data := by
  rcases foldl_max_acc_or_mem
      ((distinctVals data).map fun v => data.count v) 0 with h0 | hm
  · have := maxFreq_pos h
    rw [maxFreq] at this ⊢
    omega
  · obtain ⟨v, hv, hc⟩ := List.mem_map.mp hm
    exact ⟨v, (mem_distinctVals _ _).mp hv, hc⟩

/-- The no-repeats condition is exactly `maxFreq = 1`. -/
theorem maxFreq_eq_one_iff {data : List ℚ} (h : data ≠ []) :
    (maxFreq data = 1 ↔ ∀ v ∈ data, data.count v = 1) := by
  constructor
  · intro h1 v hv
    have h2 := count_le_maxFreq hv
    have h3 := List.count_pos_iff.mpr hv
    omega
  · intro hall
    have hub : maxFreq data ≤ 1 := by
      apply foldl_max_le (by omega)
      intro x hx
      obtain ⟨v, hv, rfl⟩ := List.mem_map.mp hx
      exact le_of_eq (hall v ((mem_distinctVals _ _).mp hv))
    have := maxFreq_pos h
    omega

/-- `Object.keys` enumeration is a permutation of the insertion
order. -/
theorem objectKeys_perm (keys : List ℚ) : List.Perm (objectKeys keys) keys :=
  ((List.perm_insertionSort _ _).append_right _).trans
    (List.filter_append_perm _ keys)

/-- A non-sentinel mode result can never be the sentinel list. -/
theorem calculateMode_ne_sentinel {data : List ℚ} (hd : data ≠ [])
    (hm : maxFreq data ≠ 1) :
    calculateMode data ≠ some [ModeEntry.str "No mode"] := by
  intro hEq
  simp only [calculateMode, if_neg hd, if_neg hm, Option.some.injEq] at hEq
  rcases hL : (objectKeys (distinctVals data)).filter
      (fun v => data.count v = maxFreq data) with _ | ⟨q, t⟩ <;>
    rw [hL] at hEq <;> simp at hEq

/-- Same for the statistics.js variant. -/
theorem statsCalculateMode_ne_sentinel {data : List ℚ} (hd : data ≠ [])
    (hm : maxFreq data ≠ 1) :
    statsCalculateMode data ≠ some [ModeEntry.str "No mode"] := by
  intro hEq
  simp only [statsCalculateMode, if_neg hd, if_neg hm, Option.some.injEq] at hEq
  rcases hL : ((objectKeys (distinctVals data)).filter
      (fun v => data.count v = maxFreq data)).insertionSort (· ≤ ·) with _ | ⟨q, t⟩ <;>
    rw [hL] at hEq <;> simp at hEq

/-- C3 (amended): for every non-empty sample both mode variants return
the sentinel `['No mode']` exactly when every value occurs once;
otherwise the returned values are precisely those whose frequency
equals the maximum observed frequency (`maxFreq`, which bounds and is
attained by the frequencies), without duplicates — in ascending order
for the statistics.js variant, and in JS property-enumeration order (a
permutation of it) for the calculator.js variant; `[1,2,3]` yields the
sentinel and `[1,1,2,3]` yields `[1]` in both variants. -/
theorem mode_spec :
    (∀ data : List ℚ, data ≠ [] →
      ((∀ v ∈ data, data.count v ≤ maxFreq data) ∧
        (∃ v ∈ data, data.count v = maxFreq data)) ∧
      (calculateMode data = some [ModeEntry.str "No mode"] ↔
        ∀ v ∈ data, data.count v = 1) ∧
      (statsCalculateMode data = some [ModeEntry.str "No mode"] ↔
        ∀ v ∈ data, data.count v = 1) ∧
      (¬ (∀ v ∈ data, data.count v = 1) →
        ∃ l : List ℚ,
          statsCalculateMode data = some (l.map ModeEntry.num) ∧
          List.Sorted (· ≤ ·) l ∧ l.Nodup ∧
          (∀ v : ℚ, v ∈ l ↔ v ∈ data ∧ data.count v = maxFreq data) ∧
          ∃ l' : List ℚ, calculateMode data = some (l'.map ModeEntry.num) ∧
            List.Perm l' l)) ∧
    calculateMode [1, 2, 3] = some [ModeEntry.str "No mode"] ∧
    calculateMode [1, 1, 2, 3] = some [ModeEntry.num 1] ∧
    statsCalculateMode [1, 2, 3] = some [ModeEntry.str "No mode"] ∧
    statsCalculateMode [1, 1, 2, 3] = some [ModeEntry.num 1] := by
  refine ⟨?_, by decide, by decide, by decide, by decide⟩
  intro data hd
  refine ⟨⟨fun v hv => count_le_maxFreq hv, maxFreq_attained hd⟩, ?_, ?_, ?_⟩
  · constructor
    · intro hEq
      by_cases hm : maxFreq data = 1
      · exact (maxFreq_eq_one_iff hd).mp hm
      · exact absurd hEq (calculateMode_ne_sentinel hd hm)
    · intro hall
      have hm := (maxFreq_eq_one_iff hd).mpr hall
      simp [calculateMode, if_neg hd, hm]
  · constructor
    · intro hEq
      by_cases hm : maxFreq data = 1
      · exact (maxFreq_eq_one_iff hd).mp hm
      · exact absurd hEq (statsCalculateMode_ne_sentinel hd hm)
    · intro hall
      have hm := (maxFreq_eq_one_iff hd).mpr hall
      simp [statsCalculateMode, if_neg hd, hm]
  · intro hall
    have hm : maxFreq data ≠ 1 := fun h => hall ((maxFreq_eq_one_iff hd).mp h)
    set L := (objectKeys (distinctVals data)).filter
      (fun v => data.count v = maxFreq data) with hL
    refine ⟨L.insertionSort (· ≤ ·), ?_, List.sorted_insertionSort _ _, ?_, ?_, L, ?_, ?_⟩
    · simp only [statsCalculateMode, if_neg hd, if_neg hm]
    · exact ((List.perm_insertionSort _ L).nodup_iff).mpr
        (((objectKeys_perm _).nodup_iff.mpr (distinctVals_nodup data)).filter _)
    · intro v
      rw [(List.perm_insertionSort _ L).mem_iff, hL, List.mem_filter,
        (objectKeys_perm _).mem_iff, mem_distinctVals]
      simp
    · simp only [calculateMode, if_neg hd, if_neg hm]
    · exact (List.perm_insertionSort _ L).symm

/-- Witness for `mode_spec` at the concrete sample `[1, 1, 2]`. -/
theorem mode_spec_witness :
    (([1, 1, 2] : List ℚ) ≠ []) ∧
    (¬ (∀ v ∈ ([1, 1, 2] : List ℚ), ([1, 1, 2] : List ℚ).count v = 1)) ∧
    ∃ l : List ℚ,
      statsCalculateMode [1, 1, 2] = some (l.map ModeEntry.num) ∧
      List.Sorted (· ≤ ·) l ∧ l.Nodup ∧
      (∀ v : ℚ, v ∈ l ↔ v ∈ ([1, 1, 2] : List ℚ) ∧
        ([1, 1, 2] : List ℚ).count v = maxFreq [1, 1, 2]) ∧
      ∃ l' : List ℚ, calculateMode [1, 1, 2] = some (l'.map ModeEntry.num) ∧
        List.Perm l' l :=
  ⟨by decide, by decide,
    ((mode_spec.1 [1, 1, 2] (by decide)).2.2.2) (by decide)⟩

/-- C3 counterexample: calculator.js returns the modes of
`[3, 3, -1, -1]` in property-enumeration order `[3, -1]`, not in the
ascending numeric order `[-1, 3]` that the claim requires. -/
theorem calculateMode_not_ascending :
    calculateMode [3, 3, -1, -1] = some [ModeEntry.num 3, ModeEntry.num (-1)] ∧
    calculateMode [3, 3, -1, -1] ≠
      some [ModeEntry.num (-1), ModeEntry.num 3] := by
  constructor <;> decide

/-! ## C8: class width and Sturges' rule -/

/-- `findUp` finds the least index satisfying `p`, given a witness
within the fuel. -/
theorem findUp_spec (p : ℕ → Bool) :
    ∀ (fuel j : ℕ), (∃ k, j ≤ k ∧ k ≤ j + fuel ∧ p k = true) →
      p (findUp p j fuel) = true ∧
      ∀ i, j ≤ i → i < findUp p j fuel → p i = false := by
  intro fuel
  induction fuel with
  | zero =>
    rintro j ⟨k, hjk, hkj, hpk⟩
    have hkj' : k = j := by omega
    subst hkj'
    refine ⟨hpk, fun i h1 h2 => ?_⟩
    simp only [findUp] at h2
    omega
  | succ fuel ih =>
    rintro j ⟨k, hjk, hkj, hpk⟩
    by_cases hpj : p j = true
    · simp only [findUp, if_pos hpj]
      exact ⟨hpj, fun i h1 h2 => by omega⟩
    · have hk1 : j + 1 ≤ k := by
        rcases Nat.eq_or_lt_of_le hjk with rfl | h
        · exact absurd hpk hpj
        · omega
      obtain ⟨ha, hb⟩ := ih (j + 1) ⟨k, hk1, by omega, hpk⟩
      simp only [findUp, if_neg hpj]
      refine ⟨ha, fun i h1 h2 => ?_⟩
      rcases Nat.eq_or_lt_of_le h1 with rfl | h
      · exact Bool.eq_false_iff.mpr hpj
      · exact hb i (by omega) h2

/-- The fuel `2 * n` always suffices for the Sturges search:
`n ^ 1661 ≤ 10 ^ (1000 * n)`. -/
theorem sturgesP_two_n (n : ℕ) : sturgesP n (2 * n) = true := by
  have h1 : n ^ 1661 ≤ (2 ^ n) ^ 1661 :=
    Nat.pow_le_pow_left (le_of_lt (Nat.lt_two_pow n)) 1661
  have h2 : (2 ^ n) ^ 1661 = (2 ^ 1661) ^ n := by
    rw [← pow_mul, ← pow_mul, Nat.mul_comm]
  have h3 : (2 ^ 1661) ^ n ≤ (10 ^ 1000) ^ n :=
    Nat.pow_le_pow_left (by norm_num) n
  have h4 : (10 ^ 1000) ^ n = 10 ^ (500 * (2 * n)) := by
    rw [← pow_mul]
    ring_nf
  simp only [sturgesP, decide_eq_true_eq]
  calc n ^ 1661 ≤ (2 ^ n) ^ 1661 := h1
    _ = (2 ^ 1661) ^ n := h2
    _ ≤ (10 ^ 1000) ^ n := h3
    _ = 10 ^ (500 * (2 * n)) := h4

/-- The Sturges threshold test is exactly `3.322 * log10 n ≤ j`. -/
theorem sturgesP_iff (n : ℕ) (hn : 1 ≤ n) (j : ℕ) :
    sturgesP n j = true ↔ 3.322 * Real.logb 10 (n : ℝ) ≤ (j : ℝ) := by
  have hnpos : (0 : ℝ) < (n : ℝ) ^ (1661 : ℕ) := by positivity
  rw [sturgesP, decide_eq_true_eq]
  rw [show (3.322 : ℝ) = 1661 / 500 by norm_num, div_mul_eq_mul_div,
    div_le_iff (by norm_num : (0 : ℝ) < 500)]
  rw [show ((1661 : ℝ)) * Real.logb 10 (n : ℝ) = Real.logb 10 ((n : ℝ) ^ (1661 : ℕ)) by
    rw [Real.logb_pow]; push_cast; ring]
  rw [Real.logb_le_iff_le_rpow (by norm_num) hnpos]
  rw [show ((j : ℝ) * 500) = (((500 * j : ℕ) : ℕ) : ℝ) by push_cast; ring,
    Real.rpow_natCast]
  constructor
  · intro h
    exact_mod_cast h
  · intro h
    exact_mod_cast h

/-- The computed Sturges value is exactly
`⌈1 + 3.322 * log10 n⌉` for `n ≥ 1`. -/
theorem sturges_eq_ceil (n : ℕ) (hn : 1 ≤ n) :
    (sturges n : ℤ) = ⌈(1 : ℝ) + 3.322 * Real.logb 10 (n : ℝ)⌉ := by
  obtain ⟨hfind, hmin⟩ := findUp_spec (sturgesP n) (2 * n) 0
    ⟨2 * n, by omega, by omega, sturgesP_two_n n⟩
  set j0 := findUp (sturgesP n) 0 (2 * n) with hj0
  have hlogb0 : 0 ≤ Real.logb 10 (n : ℝ) :=
    Real.logb_nonneg (by norm_num) (by exact_mod_cast hn)
  have hupper : 3.322 * Real.logb 10 (n : ℝ) ≤ (j0 : ℝ) :=
    (sturgesP_iff n hn j0).mp hfind
  have hlower : (j0 : ℝ) < 1 + 3.322 * Real.logb 10 (n : ℝ) := by
    rcases Nat.eq_zero_or_pos j0 with h0 | hpos
    · rw [h0]
      push_cast
      nlinarith
    · by_contra hcon
      push_neg at hcon
      have hle : 3.322 * Real.logb 10 (n : ℝ) ≤ ((j0 - 1 : ℕ) : ℝ) := by
        have : ((j0 - 1 : ℕ) : ℝ) = (j0 : ℝ) - 1 := by
          push_cast [Nat.cast_sub hpos]
          ring
        rw [this]
        linarith
      have htrue := (sturgesP_iff n hn (j0 - 1)).mpr hle
      have hfalse := hmin (j0 - 1) (by omega) (by omega)
      rw [htrue] at hfalse
      exact Bool.noConfusion hfalse
  rw [sturges, ← hj0]
  symm
  rw [Int.ceil_eq_iff]
  constructor
  · push_cast
    linarith
  · push_cast
    linarith

/-- C8 (amended): for every non-empty sample the class width is
`ceil(range / classCount * 100) / 100` (range/count rounded *up* to 2
decimal places); an explicit class count `< 1` is replaced by Sturges'
value in both variants; for an *absent* class count the calculator.js
variant falls back to Sturges' value while the statistics.js variant
defaults to `5`; and the computed Sturges value is exactly
`⌈1 + 3.322 * log10 n⌉`. -/
theorem classWidth_spec :
    (∀ data : List ℚ, data ≠ [] → ∀ c : ℚ, 1 ≤ c →
      calculateClassWidth data (some c) =
        some ((⌈((listMax data).getD 0 - (listMin data).getD 0) / c * 100⌉ : ℚ)
          / 100) ∧
      statsCalculateClassWidth data (some c) = calculateClassWidth data (some c)) ∧
    (∀ data : List ℚ, data ≠ [] →
      calculateClassWidth data none =
        some ((⌈((listMax data).getD 0 - (listMin data).getD 0) /
          (sturges data.length : ℚ) * 100⌉ : ℚ) / 100) ∧
      statsCalculateClassWidth data none = calculateClassWidth data (some 5)) ∧
    (∀ data : List ℚ, data ≠ [] → ∀ c : ℚ, c < 1 →
      calculateClassWidth data (some c) = calculateClassWidth data none ∧
      statsCalculateClassWidth data (some c) = calculateClassWidth data none) ∧
    (∀ n : ℕ, 1 ≤ n →
      (sturges n : ℤ) = ⌈(1 : ℝ) + 3.322 * Real.logb 10 (n : ℝ)⌉) := by
  refine ⟨?_, ?_, ?_, sturges_eq_ceil⟩
  · intro data hd c hc
    have hnc : ¬(c < 1) := not_lt.mpr hc
    constructor
    · simp only [calculateClassWidth, if_neg hd, if_neg hnc]
    · simp only [statsCalculateClassWidth, calculateClassWidth, if_neg hd,
        if_neg hnc, Option.getD_some]
  · intro data hd
    have h51 : ¬((5 : ℚ) < 1) := by norm_num
    constructor
    · simp only [calculateClassWidth, if_neg hd]
    · simp only [statsCalculateClassWidth, calculateClassWidth, if_neg hd,
        if_neg h51, Option.getD_some, Option.getD_none]
  · intro data hd c hc
    constructor
    · simp only [calculateClassWidth, if_neg hd, if_pos hc]
    · simp only [statsCalculateClassWidth, calculateClassWidth, if_neg hd,
        if_pos hc, Option.getD_some]

/-- Witness for `classWidth_spec` at `[0, 1]` with class counts `2`,
absent, and `0`, and `n = 2` for the Sturges formula. -/
theorem classWidth_spec_witness :
    (calculateClassWidth [0, 1] (some 2) =
      some ((⌈((listMax [0, 1]).getD 0 - (listMin [0, 1]).getD 0) / 2 * 100⌉ : ℚ)
        / 100) ∧
     statsCalculateClassWidth [0, 1] (some 2) =
       calculateClassWidth [0, 1] (some 2)) ∧
    (calculateClassWidth [0, 1] none =
      some ((⌈((listMax [0, 1]).getD 0 - (listMin [0, 1]).getD 0) /
        (sturges ([0, 1] : List ℚ).length : ℚ) * 100⌉ : ℚ) / 100) ∧
     statsCalculateClassWidth [0, 1] none = calculateClassWidth [0, 1] (some 5)) ∧
    (calculateClassWidth [0, 1] (some 0) = calculateClassWidth [0, 1] none ∧
     statsCalculateClassWidth [0, 1] (some 0) = calculateClassWidth [0, 1] none) ∧
    (sturges 2 : ℤ) = ⌈(1 : ℝ) + 3.322 * Real.logb 10 ((2 : ℕ) : ℝ)⌉ :=
  ⟨classWidth_spec.1 [0, 1] (by decide) 2 (by decide),
   classWidth_spec.2.1 [0, 1] (by decide),
   classWidth_spec.2.2.1 [0, 1] (by decide) 0 (by decide),
   classWidth_spec.2.2.2 2 (by decide)⟩

set_option maxRecDepth 40000 in
/-- C8 counterexample: with an *absent* class count on the two-point
sample `[0, 1]`, statistics.js divides the range by the default `5`
(width `0.2`), not by Sturges' value `3` as the claim requires (which
calculator.js does use, giving width `0.34`). -/
theorem statsClassWidth_absent_cex :
    statsCalculateClassWidth [0, 1] none = some (1/5) ∧
    calculateClassWidth [0, 1] none = some (17/50) ∧
    sturges 2 = 3 ∧ ((1/5 : ℚ) ≠ 17/50) := by
  have hst : sturges 2 = 3 := by decide
  have hceil : ⌈(100/3 : ℚ)⌉ = 34 := by
    rw [Int.ceil_eq_iff]
    norm_num
  refine ⟨?_, ?_, hst, by norm_num⟩
  · norm_num [statsCalculateClassWidth, listMin, listMax, min_def, max_def,
      List.cons_ne_nil]
  · norm_num [calculateClassWidth, listMin, listMax, min_def, max_def, hst,
      hceil, List.cons_ne_nil]

/-! ## Digit strings: `natToDigits`, `digitsToNat` and char classes -/

theorem digitChar_isDigit {d : ℕ} (h : d < 10) :
    isDigitCh (digitChar d) = true := by
  interval_cases d <;> decide

theorem digitVal_digitChar {d : ℕ} (h : d < 10) : digitVal (digitChar d) = d := by
  interval_cases d <;> decide

theorem digitChar_ne_zero {d : ℕ} (h : d < 10) (hd : d ≠ 0) :
    digitChar d ≠ '0' := by
  interval_cases d
  · exact absurd rfl hd
  all_goals decide

/-- A decimal digit character is not one of the special characters the
parser inspects, and not a separator. -/
theorem isDigitCh_ne {c : Char} (h : isDigitCh c = true) :
    c ≠ 'I' ∧ c ≠ '+' ∧ c ≠ '-' ∧ c ≠ '.' ∧ isDelim c = false := by
  refine ⟨?_, ?_, ?_, ?_, ?_⟩
  · rintro rfl; exact absurd h (by decide)
  · rintro rfl; exact absurd h (by decide)
  · rintro rfl; exact absurd h (by decide)
  · rintro rfl; exact absurd h (by decide)
  · by_contra hb
    rw [Bool.not_eq_false, isDelim] at hb
    simp only [Bool.or_eq_true, decide_eq_true_eq] at hb
    rcases hb with ((((((rfl|rfl)|rfl)|rfl)|rfl)|rfl)|rfl)|rfl <;>
      exact absurd h (by decide)

theorem natToDigits_ne_nil (n : ℕ) : natToDigits n ≠ [] := by
  rw [natToDigits]
  split <;> simp

theorem natToDigits_digits (n : ℕ) : ∀ c ∈ natToDigits n, isDigitCh c = true := by
  induction n using Nat.strong_induction_on with
  | _ n ih =>
    rw [natToDigits]
    split
    · next h =>
      intro c hc
      rw [List.mem_singleton.mp hc]
      exact digitChar_isDigit h
    · next h =>
      intro c hc
      rcases List.mem_append.mp hc with hc | hc
      · exact ih (n / 10) (Nat.div_lt_self (by omega) (by omega)) c hc
      · rw [List.mem_singleton.mp hc]
        exact digitChar_isDigit (Nat.mod_lt _ (by omega))

theorem digitsToNat_concat (xs : List Char) (c : Char) :
    digitsToNat (xs ++ [c]) = 10 * digitsToNat xs + digitVal c := by
  rw [digitsToNat, digitsToNat, List.foldl_append]
  simp

theorem digitsToNat_natToDigits (n : ℕ) : digitsToNat (natToDigits n) = n := by
  induction n using Nat.strong_induction_on with
  | _ n ih =>
    rw [natToDigits]
    split
    · next h =>
      simp [digitsToNat, digitVal_digitChar h]
    · next h =>
      rw [digitsToNat_concat, ih (n / 10) (Nat.div_lt_self (by omega) (by omega)),
        digitVal_digitChar (Nat.mod_lt _ (by omega))]
      omega

theorem natToDigits_length_le : ∀ n k : ℕ, 1 ≤ k → n < 10 ^ k →
    (natToDigits n).length ≤ k := by
  intro n
  induction n using Nat.strong_induction_on with
  | _ n ih =>
    intro k hk h
    rw [natToDigits]
    split
    · next h10 => simpa using hk
    · next h10 =>
      push_neg at h10
      have hk2 : 2 ≤ k := by
        rcases Nat.lt_or_ge k 2 with hc | hc
        · interval_cases k <;> omega
        · exact hc
      have hdi : n / 10 < 10 ^ (k - 1) := by
        rw [Nat.div_lt_iff_lt_mul (by omega)]
        calc n < 10 ^ k := h
          _ = 10 ^ (k - 1) * 10 := by
            rw [← pow_succ]
            congr 1
            omega
      have := ih (n / 10) (Nat.div_lt_self (by omega) (by omega)) (k - 1)
        (by omega) hdi
      simp only [List.length_append, List.length_cons, List.length_nil]
      omega

theorem natToDigits_getLast? (n : ℕ) :
    (natToDigits n).getLast? = some (digitChar (n % 10)) := by
  rw [natToDigits]
  split
  · next h => rw [Nat.mod_eq_of_lt h]; rfl
  · next h => rw [List.getLast?_concat]

theorem digitsToNat_replicate_zero (j : ℕ) (ds : List Char) :
    digitsToNat (List.replicate j '0' ++ ds) = digitsToNat ds := by
  induction j with
  | zero => simp
  | succ j ih =>
    rw [List.replicate_succ, List.cons_append, digitsToNat, List.foldl_cons]
    show List.foldl _ (10 * 0 + digitVal '0') _ = _
    rw [show 10 * 0 + digitVal '0' = 0 from rfl]
    exact ih

/-! ### takeWhile / dropWhile over block boundaries -/

theorem takeWhile_append_all {p : Char → Bool} (xs ys : List Char)
    (h : ∀ c ∈ xs, p c = true) :
    (xs ++ ys).takeWhile p = xs ++ ys.takeWhile p := by
  induction xs with
  | nil => simp
  | cons c xs ih =>
    rw [List.cons_append, List.takeWhile_cons, if_pos (h c (by simp)),
      ih fun c hc => h c (by simp [hc]), List.cons_append]

theorem dropWhile_append_all {p : Char → Bool} (xs ys : List Char)
    (h : ∀ c ∈ xs, p c = true) :
    (xs ++ ys).dropWhile p = ys.dropWhile p := by
  induction xs with
  | nil => simp
  | cons c xs ih =>
    rw [List.cons_append, List.dropWhile_cons_of_pos (h c (by simp))]
    exact ih fun c hc => h c (by simp [hc])

theorem takeWhile_eq_self_of_all {p : Char → Bool} (xs : List Char)
    (h : ∀ c ∈ xs, p c = true) : xs.takeWhile p = xs := by
  have := takeWhile_append_all xs [] h
  simpa using this

theorem dropWhile_eq_nil_of_all {p : Char → Bool} (xs : List Char)
    (h : ∀ c ∈ xs, p c = true) : xs.dropWhile p = [] := by
  have := dropWhile_append_all xs [] h
  simpa using this

theorem dropWhile_eq_self_of_all_neg {p : Char → Bool} (xs : List Char)
    (h : ∀ c ∈ xs.head?, p c = false) : xs.dropWhile p = xs := by
  cases xs with
  | nil => rfl
  | cons c t => exact List.dropWhile_cons_of_neg (by simp [h c (by simp)])

/-! ### Parsing rendered digit strings -/

theorem take_ne_infinity {c : Char} (hc : c ≠ 'I') (t : List Char) :
    ((c :: t).take 8 = "Infinity".data) = False := by
  simp only [show "Infinity".data = 'I' :: "nfinity".data from rfl,
    List.take_succ_cons, List.cons.injEq]
  exact eq_false (by rintro ⟨rfl, -⟩; exact hc rfl)

/-- Helper: the head of `natToDigits n ++ rest` is a digit, so the
`Infinity` test in `parseUnsigned` fails. -/
theorem natToDigits_take_ne_infinity (n : ℕ) (rest : List Char) :
    ((natToDigits n ++ rest).take 8 = "Infinity".data) = False := by
  rcases hh : natToDigits n with _ | ⟨c, cs⟩
  · exact absurd hh (natToDigits_ne_nil n)
  · have hcdig : isDigitCh c = true := natToDigits_digits n c (by rw [hh]; simp)
    rw [List.cons_append]
    exact take_ne_infinity (isDigitCh_ne hcdig).1 _

/-- `parseUnsigned` on a pure digit string `natToDigits n` yields
`n`. -/
theorem parseUnsigned_natToDigits (n : ℕ) :
    parseUnsigned (natToDigits n) = .num n := by
  rw [parseUnsigned]
  rw [if_neg (by
    have := natToDigits_take_ne_infinity n []
    rw [List.append_nil] at this
    rw [this]
    exact not_false)]
  rw [takeWhile_eq_self_of_all _ (natToDigits_digits n),
    dropWhile_eq_nil_of_all _ (natToDigits_digits n)]
  rcases hh : natToDigits n with _ | ⟨c, cs⟩
  · exact absurd hh (natToDigits_ne_nil n)
  · show JsVal.num _ = _
    rw [← hh, digitsToNat_natToDigits]
    norm_num [parseExponent]

/-- `parseUnsigned` on `natToDigits ip ++ '.' :: frac` (all-digit
`frac`) yields `ip + frac / 10 ^ |frac|`. -/
theorem parseUnsigned_int_frac (ip : ℕ) (frac : List Char)
    (hfrac : ∀ c ∈ frac, isDigitCh c = true) :
    parseUnsigned (natToDigits ip ++ '.' :: frac) =
      .num ((ip : ℚ) + (digitsToNat frac : ℚ) / 10 ^ frac.length) := by
  rw [parseUnsigned]
  rw [if_neg (by rw [natToDigits_take_ne_infinity ip]; exact not_false)]
  rw [takeWhile_append_all _ _ (natToDigits_digits ip),
    dropWhile_append_all _ _ (natToDigits_digits ip)]
  rw [show (('.' :: frac).takeWhile isDigitCh) = [] from
      List.takeWhile_cons_of_neg (by decide),
    List.append_nil,
    show (('.' :: frac).dropWhile isDigitCh) = '.' :: frac from
      List.dropWhile_cons_of_neg (by decide)]
  rcases hh : natToDigits ip with _ | ⟨c, cs⟩
  · exact absurd hh (natToDigits_ne_nil ip)
  · show JsVal.num _ = _
    rw [← hh, digitsToNat_natToDigits,
      takeWhile_eq_self_of_all _ hfrac, dropWhile_eq_nil_of_all _ hfrac]
    norm_num [parseExponent]

/-- `jsParseFloat` of a rendered integer. -/
theorem jsParseFloat_renderInt (z : ℤ) :
    jsParseFloat (renderInt z) = .num (z : ℚ) := by
  by_cases hz : z < 0
  · rw [renderInt, if_pos hz]
    show jsParseFloat ('-' :: natToDigits z.natAbs) = _
    rw [jsParseFloat]
    rw [if_neg (by decide), if_pos rfl, parseUnsigned_natToDigits]
    show JsVal.num _ = _
    congr 1
    rw [Int.cast_natAbs]
    rw [abs_of_neg (by exact_mod_cast hz)]
    push_cast
    ring
  · rw [renderInt, if_neg hz]
    show jsParseFloat (natToDigits z.natAbs) = _
    rcases hh : natToDigits z.natAbs with _ | ⟨c, cs⟩
    · exact absurd hh (natToDigits_ne_nil _)
    · have hcdig : isDigitCh c = true :=
        natToDigits_digits _ c (by rw [hh]; simp)
      rw [jsParseFloat]
      rw [if_neg (isDigitCh_ne hcdig).2.1, if_neg (isDigitCh_ne hcdig).2.2.1,
        ← hh, parseUnsigned_natToDigits]
      congr 1
      rw [Int.cast_natAbs, abs_of_nonneg (by exact_mod_cast not_lt.mp hz)]

/-! ### The fixed-4 renderer -/

/-- The trailing-zero counter is correct on naturals not divisible by
`10^4`: it is at most 3, the counted power divides, and the quotient
does not end in `0`. -/
theorem trailingZeros_spec (na : ℕ) (h : ¬(10000 ∣ na)) :
    trailingZeros na ≤ 3 ∧ 10 ^ trailingZeros na ∣ na ∧
      (na / 10 ^ trailingZeros na) % 10 ≠ 0 := by
  have hmod : na % 10000 ≠ 0 := fun hc => h (Nat.dvd_of_mod_eq_zero hc)
  rw [trailingZeros]
  by_cases h1 : na % 10 ≠ 0
  · rw [if_pos h1]
    norm_num
    omega
  · rw [if_neg h1]
    push_neg at h1
    by_cases h2 : na % 100 ≠ 0
    · rw [if_pos h2]
      norm_num
      constructor
      · exact Nat.dvd_of_mod_eq_zero h1
      · omega
    · rw [if_neg h2]
      push_neg at h2
      by_cases h3 : na % 1000 ≠ 0
      · rw [if_pos h3]
        norm_num
        constructor
        · exact Nat.dvd_of_mod_eq_zero h2
        · omega
      · rw [if_neg h3]
        push_neg at h3
        norm_num
        constructor
        · exact Nat.dvd_of_mod_eq_zero h3
        · omega

/-- The value rendered by `renderFixed4` parses back (via `parseFloat`)
to exactly `n / 10^4`. -/
theorem jsParseFloat_renderFixed4 (n : ℤ) (h : ¬((10000 : ℤ) ∣ n)) :
    jsParseFloat (renderFixed4 n) = .num ((n : ℚ) / 10000) := by
  have hna : ¬((10000 : ℕ) ∣ n.natAbs) := fun hc =>
    h (Int.natAbs_dvd_natAbs.mp
      (show (10000 : ℤ).natAbs ∣ n.natAbs by simpa using hc))
  obtain ⟨ht3, htd, hm10⟩ := trailingZeros_spec n.natAbs hna
  set t := trailingZeros n.natAbs with htdef
  set k := 4 - t with hkdef
  set m := n.natAbs / 10 ^ t with hmdef
  set ip := m / 10 ^ k with hipdef
  set fp := m % 10 ^ k with hfpdef
  have hk1 : 1 ≤ k := by omega
  have hfplt : fp < 10 ^ k := Nat.mod_lt _ (by positivity)
  have hlen : (natToDigits fp).length ≤ k :=
    natToDigits_length_le fp k hk1 hfplt
  have hfrac : ∀ c ∈ List.replicate (k - (natToDigits fp).length) '0' ++
      natToDigits fp, isDigitCh c = true := by
    intro c hc
    rcases List.mem_append.mp hc with hc | hc
    · rw [List.eq_of_mem_replicate hc]; decide
    · exact natToDigits_digits _ c hc
  have hfraclen : (List.replicate (k - (natToDigits fp).length) '0' ++
      natToDigits fp).length = k := by
    simp only [List.length_append, List.length_replicate]
    omega
  have hfracval : digitsToNat (List.replicate (k - (natToDigits fp).length) '0' ++
      natToDigits fp) = fp := by
    rw [digitsToNat_replicate_zero, digitsToNat_natToDigits]
  -- the rendered string, in `A ++ '.' :: frac` shape
  have hshape : renderFixed4 n = (if n < 0 then ['-'] else []) ++
      (natToDigits ip ++ '.' :: (List.replicate (k - (natToDigits fp).length) '0' ++
        natToDigits fp)) := by
    rw [renderFixed4]
    simp only [← htdef, ← hkdef, ← hmdef, ← hipdef, ← hfpdef, List.append_assoc,
      List.singleton_append]
  -- value of the unsigned part
  have hval : parseUnsigned (natToDigits ip ++ '.' ::
      (List.replicate (k - (natToDigits fp).length) '0' ++ natToDigits fp)) =
      .num ((n.natAbs : ℚ) / 10000) := by
    rw [parseUnsigned_int_frac ip _ hfrac, hfracval, hfraclen]
    congr 1
    have hm : (m : ℚ) = 10 ^ k * (ip : ℚ) + (fp : ℚ) := by
      rw [hipdef, hfpdef]
      exact_mod_cast (Nat.div_add_mod m (10 ^ k)).symm
    have hna' : (n.natAbs : ℚ) = 10 ^ t * (m : ℚ) := by
      rw [hmdef]
      exact_mod_cast (Nat.mul_div_cancel' htd).symm
    have h10k : (10 : ℚ) ^ k ≠ 0 := by positivity
    have h10t : (10 : ℚ) ^ t ≠ 0 := by positivity
    have htk : (10 : ℚ) ^ t * 10 ^ k = 10000 := by
      rw [← pow_add, show t + k = 4 by omega]
      norm_num
    have hcast : ((n.natAbs : ℚ)) = 10 ^ t * (10 ^ k * ip + fp) := by
      rw [hna', hm]
    rw [hcast, ← htk]
    field_simp
    ring
  by_cases hz : n < 0
  · rw [hshape, if_pos hz, List.singleton_append]
    rw [jsParseFloat]
    rw [if_neg (by decide), if_pos rfl, hval]
    show JsVal.num _ = _
    congr 1
    rw [Int.cast_natAbs, abs_of_neg hz]
    push_cast
    ring
  · rw [hshape, if_neg hz, List.nil_append]
    rcases hh : natToDigits ip with _ | ⟨c, cs⟩
    · exact absurd hh (natToDigits_ne_nil _)
    · have hcdig : isDigitCh c = true :=
        natToDigits_digits _ c (by rw [hh]; simp)
      rw [List.cons_append, jsParseFloat,
        if_neg (isDigitCh_ne hcdig).2.1, if_neg (isDigitCh_ne hcdig).2.2.1,
        ← List.cons_append, ← hh, hval]
      congr 1
      rw [Int.cast_natAbs, abs_of_nonneg (not_lt.mp hz)]

/-! ### `renderQ` and `formatNumber` -/

/-- Rounding to 4 decimals fixes integers. -/
theorem round4_int {q : ℚ} (h : q.den = 1) : round4 q = q := by
  have hq : (q.num : ℚ) = q := by
    conv_rhs => rw [← Rat.num_div_den q]
    rw [h]
    norm_num
  rw [round4, ← hq]
  have : (q.num : ℚ) * 10000 + 1 / 2 = 1 / 2 + ((q.num * 10000 : ℤ) : ℚ) := by
    push_cast
    ring
  rw [this, Int.floor_add_int]
  rw [show ⌊(1 / 2 : ℚ)⌋ = 0 by norm_num]
  push_cast
  ring

/-- `formatNumber` always produces the `renderQ` string on a number. -/
theorem formatNumber_eq_renderQ (q : ℚ) :
    formatNumber (some q) = some (String.mk (renderQ q)) := by
  by_cases h1 : q.den = 1
  · simp only [formatNumber, renderQ, if_pos h1]
  · by_cases h2 : ⌊q * 10000 + 1 / 2⌋ % 10000 = 0
    · simp only [formatNumber, renderQ, if_neg h1, if_pos h2]
    · simp only [formatNumber, renderQ, if_neg h1, if_neg h2]

/-- The rendered string of any number parses back (via `parseFloat`)
to the number rounded to 4 decimal places. -/
theorem jsParseFloat_renderQ (q : ℚ) :
    jsParseFloat (renderQ q) = .num (round4 q) := by
  by_cases h1 : q.den = 1
  · rw [renderQ, if_pos h1, jsParseFloat_renderInt, round4_int h1]
    congr 1
    conv_rhs => rw [← Rat.num_div_den q]
    rw [h1]
    norm_num
  · rw [renderQ, if_neg h1]
    set n := ⌊q * 10000 + 1 / 2⌋ with hn
    by_cases h2 : n % 10000 = 0
    · rw [if_pos h2, jsParseFloat_renderInt, round4, ← hn]
      congr 1
      obtain ⟨c, hceq⟩ := Int.dvd_of_emod_eq_zero h2
      rw [hceq, Int.mul_ediv_cancel_left c (by norm_num)]
      push_cast
      ring
    · rw [if_neg h2, jsParseFloat_renderFixed4 n
        (fun hdvd => h2 (Int.emod_eq_zero_of_dvd hdvd)), round4, ← hn]

/-- The fixed-4 rendering ends in a nonzero digit (trailing zeros are
stripped). -/
theorem renderFixed4_getLast (n : ℤ) (h : ¬((10000 : ℤ) ∣ n)) :
    ∃ c, (renderFixed4 n).getLast? = some c ∧ isDigitCh c = true ∧ c ≠ '0' := by
  have hna : ¬((10000 : ℕ) ∣ n.natAbs) := fun hc =>
    h (Int.natAbs_dvd_natAbs.mp
      (show (10000 : ℤ).natAbs ∣ n.natAbs by simpa using hc))
  obtain ⟨ht3, htd, hm10⟩ := trailingZeros_spec n.natAbs hna
  set t := trailingZeros n.natAbs with htdef
  set k := 4 - t with hkdef
  set m := n.natAbs / 10 ^ t with hmdef
  set fp := m % 10 ^ k with hfpdef
  have hk1 : 1 ≤ k := by omega
  have hfp10 : fp % 10 = m % 10 :=
    Nat.mod_mod_of_dvd m (dvd_pow_self 10 (by omega))
  have hfds : natToDigits fp ≠ [] := natToDigits_ne_nil fp
  have h3 : List.replicate (k - (natToDigits fp).length) '0' ++ natToDigits fp ≠ [] :=
    fun hc => hfds (List.append_eq_nil.mp hc).2
  have h2 : ['.'] ++ (List.replicate (k - (natToDigits fp).length) '0' ++
      natToDigits fp) ≠ [] := by simp
  have h1 : natToDigits (m / 10 ^ k) ++ (['.'] ++
      (List.replicate (k - (natToDigits fp).length) '0' ++ natToDigits fp)) ≠ [] :=
    fun hc => natToDigits_ne_nil _ (List.append_eq_nil.mp hc).1
  refine ⟨digitChar (fp % 10), ?_, digitChar_isDigit (Nat.mod_lt _ (by omega)),
    ?_⟩
  · rw [renderFixed4]
    simp only [← htdef, ← hkdef, ← hmdef, ← hfpdef, List.append_assoc]
    rw [List.getLast?_append_of_ne_nil _ h1, List.getLast?_append_of_ne_nil _ h2,
      List.getLast?_append_of_ne_nil _ h3, List.getLast?_append_of_ne_nil _ hfds,
      natToDigits_getLast?]
  · rw [hfp10]
    exact digitChar_ne_zero (Nat.mod_lt _ (by omega)) hm10

/-- The integer rendering contains no decimal point. -/
theorem dot_not_mem_renderInt (z : ℤ) : '.' ∉ renderInt z := by
  rw [renderInt]
  intro hmem
  rcases List.mem_append.mp hmem with hm | hm
  · split at hm <;> simp_all
  · exact absurd (natToDigits_digits _ _ hm) (by decide)

theorem renderInt_ne_nil (z : ℤ) : renderInt z ≠ [] := by
  rw [renderInt]
  intro hc
  rcases List.append_eq_nil.mp hc with ⟨-, h2⟩
  exact natToDigits_ne_nil _ h2

theorem renderFixed4_ne_nil (n : ℤ) : renderFixed4 n ≠ [] := by
  rw [renderFixed4]
  intro hc
  exact natToDigits_ne_nil _
    (List.append_eq_nil.mp (List.append_eq_nil.mp hc).2).2

theorem renderInt_no_delim (z : ℤ) : ∀ c ∈ renderInt z, isDelim c = false := by
  intro c hc
  rw [renderInt] at hc
  rcases List.mem_append.mp hc with hm | hm
  · split at hm
    · rw [List.mem_singleton.mp hm]; decide
    · exact absurd hm (List.not_mem_nil c)
  · exact (isDigitCh_ne (natToDigits_digits _ _ hm)).2.2.2.2

theorem renderFixed4_no_delim (n : ℤ) :
    ∀ c ∈ renderFixed4 n, isDelim c = false := by
  intro c hc
  rw [renderFixed4] at hc
  rcases List.mem_append.mp hc with hm | hm
  · rcases List.mem_append.mp hm with hm' | hm'
    · rcases List.mem_append.mp hm' with hm'' | hm''
      · split at hm''
        · rw [List.mem_singleton.mp hm'']; decide
        · exact absurd hm'' (List.not_mem_nil c)
      · exact (isDigitCh_ne (natToDigits_digits _ _ hm'')).2.2.2.2
    · rw [List.mem_singleton.mp hm']; decide
  · rcases List.mem_append.mp hm with hm' | hm'
    · rw [List.eq_of_mem_replicate hm']; decide
    · exact (isDigitCh_ne (natToDigits_digits _ _ hm')).2.2.2.2

/-- No character of a rendered number is a separator. -/
theorem renderQ_no_delim (q : ℚ) : ∀ c ∈ renderQ q, isDelim c = false := by
  intro c hc
  by_cases h1 : q.den = 1
  · rw [renderQ, if_pos h1] at hc
    exact renderInt_no_delim _ c hc
  · by_cases h2 : ⌊q * 10000 + 1 / 2⌋ % 10000 = 0
    · simp only [renderQ, if_neg h1, if_pos h2] at hc
      exact renderInt_no_delim _ c hc
    · simp only [renderQ, if_neg h1, if_neg h2] at hc
      exact renderFixed4_no_delim _ c hc

theorem renderQ_ne_nil (q : ℚ) : renderQ q ≠ [] := by
  by_cases h1 : q.den = 1
  · rw [renderQ, if_pos h1]
    exact renderInt_ne_nil _
  · by_cases h2 : ⌊q * 10000 + 1 / 2⌋ % 10000 = 0
    · simp only [renderQ, if_neg h1, if_pos h2]
      exact renderInt_ne_nil _
    · simp only [renderQ, if_neg h1, if_neg h2]
      exact renderFixed4_ne_nil _

/-! ## C9: number formatting -/

/-- C9: `formatNumber` renders an exactly integral number as its
integer string; renders any other number as its value rounded to 4
decimal places — the rendered string parses back to exactly the
rounded value and, when it has a decimal point, never ends in `'0'`
(trailing zeros beyond the rounding are stripped); and renders a
null/undefined input as the null marker, never as `"0"` and never as
the empty string. -/
theorem formatNumber_spec :
    (∀ q : ℚ, q.den = 1 →
      formatNumber (some q) = some (String.mk (renderInt q.num)) ∧
      jsParseFloat (renderInt q.num) = .num q) ∧
    (∀ q : ℚ, q.den ≠ 1 → ∃ s : String,
      formatNumber (some q) = some s ∧
      jsParseFloat s.data = .num (round4 q) ∧
      s.data ≠ [] ∧
      ('.' ∈ s.data → ∃ c, s.data.getLast? = some c ∧ c ≠ '0')) ∧
    formatNumber none = none ∧
    formatNumber none ≠ some "0" ∧
    formatNumber none ≠ some "" := by
  refine ⟨?_, ?_, rfl, by simp [formatNumber], by simp [formatNumber]⟩
  · intro q h1
    refine ⟨by simp only [formatNumber, if_pos h1], ?_⟩
    rw [jsParseFloat_renderInt]
    congr 1
    conv_rhs => rw [← Rat.num_div_den q]
    rw [h1]
    norm_num
  · intro q h1
    refine ⟨String.mk (renderQ q), formatNumber_eq_renderQ q, ?_, ?_, ?_⟩
    · show jsParseFloat (renderQ q) = _
      exact jsParseFloat_renderQ q
    · show renderQ q ≠ []
      exact renderQ_ne_nil q
    · show '.' ∈ renderQ q → _
      intro hdot
      by_cases h2 : ⌊q * 10000 + 1 / 2⌋ % 10000 = 0
      · exfalso
        simp only [renderQ, if_neg h1, if_pos h2] at hdot
        exact dot_not_mem_renderInt _ hdot
      · show ∃ c, (renderQ q).getLast? = some c ∧ c ≠ '0'
        simp only [renderQ, if_neg h1, if_neg h2]
        obtain ⟨c, hc1, -, hc3⟩ := renderFixed4_getLast _
          (fun hdvd => h2 (Int.emod_eq_zero_of_dvd hdvd))
        exact ⟨c, hc1, hc3⟩

/-- Witness for `formatNumber_spec` at the integral value `4` and the
non-integral value `9/2`. -/
theorem formatNumber_spec_witness :
    (formatNumber (some 4) = some (String.mk (renderInt (4 : ℚ).num)) ∧
      jsParseFloat (renderInt (4 : ℚ).num) = .num 4) ∧
    ∃ s : String, formatNumber (some (9/2)) = some s ∧
      jsParseFloat s.data = .num (round4 (9/2)) ∧ s.data ≠ [] ∧
      ('.' ∈ s.data → ∃ c, s.data.getLast? = some c ∧ c ≠ '0') :=
  ⟨formatNumber_spec.1 4 (by decide),
   formatNumber_spec.2.1 (9/2) (by norm_num)⟩

/-! ## C7: the parse/format round trip -/

/-- The join step of the round-trip property: tokens joined with the
comma delimiter (one of the separators accepted by the splitter). -/
def joinTokens : List (List Char) → List Char
  | [] => []
  | [t] => t
  | t :: ts => t ++ ',' :: joinTokens ts

/-- Format each number of a Sample with `formatNumber` and join the
resulting strings with commas. -/
def formatJoin (l : List ℚ) : String :=
  String.mk (joinTokens (l.map fun q => ((formatNumber (some q)).getD "").data))

theorem dropWhile_eq_self_of_all {p : Char → Bool} (xs : List Char)
    (h : ∀ c ∈ xs, p c = false) : xs.dropWhile p = xs := by
  cases xs with
  | nil => rfl
  | cons c t => exact List.dropWhile_cons_of_neg (by simp [h c (by simp)])

/-- Trimming is the identity on delimiter-free tokens. -/
theorem jsTrim_eq_self (t : List Char) (h : ∀ c ∈ t, isDelim c = false) :
    jsTrim t = t := by
  rw [jsTrim, dropWhile_eq_self_of_all t h,
    dropWhile_eq_self_of_all t.reverse fun c hc => h c (List.mem_reverse.mp hc),
    List.reverse_reverse]

/-- The split worker passes over a delimiter-free block, accumulating
it. -/
theorem jsSplitGo_block (tok : List Char) (h : ∀ c ∈ tok, isDelim c = false) :
    ∀ (rest acc : List Char),
      jsSplitGo (tok ++ rest) acc = jsSplitGo rest (tok.reverse ++ acc) := by
  induction tok with
  | nil => intro rest acc; simp
  | cons c tok ih =>
    intro rest acc
    rw [List.cons_append]
    show jsSplitGo (c :: (tok ++ rest)) acc = _
    rw [jsSplitGo, if_neg (by simp [h c (by simp)])]
    rw [ih (fun c hc => h c (by simp [hc])) rest (c :: acc)]
    congr 1
    simp

/-- A joined token list starting with a non-empty token starts with its
first character. -/
theorem joinTokens_cons_head (c : Char) (cs : List Char) (ts : List (List Char)) :
    ∃ rest, joinTokens ((c :: cs) :: ts) = c :: rest := by
  cases ts with
  | nil => exact ⟨cs, rfl⟩
  | cons t' ts' => exact ⟨cs ++ ',' :: joinTokens (t' :: ts'), rfl⟩

/-- Splitting a comma-join of non-empty delimiter-free tokens recovers
exactly the tokens. -/
theorem jsSplit_joinTokens :
    ∀ toks : List (List Char), toks ≠ [] →
      (∀ t ∈ toks, t ≠ [] ∧ ∀ c ∈ t, isDelim c = false) →
      jsSplit (joinTokens toks) = toks := by
  intro toks
  induction toks with
  | nil => intro h; exact absurd rfl h
  | cons t ts ih =>
    intro _ hall
    obtain ⟨ht, htc⟩ := hall t (by simp)
    cases ts with
    | nil =>
      have hgo := jsSplitGo_block t htc [] []
      rw [List.append_nil] at hgo
      rw [show joinTokens [t] = t from rfl, jsSplit, hgo]
      simp [jsSplitGo]
    | cons t' ts' =>
      obtain ⟨ht', htc'⟩ := hall t' (by simp)
      obtain ⟨c, cs, hc⟩ : ∃ c cs, t' = c :: cs := by
        cases t' with
        | nil => exact absurd rfl ht'
        | cons c cs => exact ⟨c, cs, rfl⟩
      rw [jsSplit, show joinTokens (t :: t' :: ts') =
        t ++ ',' :: joinTokens (t' :: ts') from rfl]
      rw [jsSplitGo_block t htc]
      rw [show jsSplitGo (',' :: joinTokens (t' :: ts')) (t.reverse ++ []) =
        (t.reverse ++ []).reverse ::
          jsSplitGo ((joinTokens (t' :: ts')).dropWhile isDelim) [] from by
        rw [jsSplitGo, if_pos (by decide)]]
      subst hc
      obtain ⟨rest, hrest⟩ := joinTokens_cons_head c cs ts'
      rw [hrest, List.dropWhile_cons_of_neg (by
        simp [htc' c (by simp)]), ← hrest]
      rw [show jsSplitGo (joinTokens ((c :: cs) :: ts')) [] =
        jsSplit (joinTokens ((c :: cs) :: ts')) from rfl]
      rw [ih (by simp) (fun u hu => hall u (by simp [hu]))]
      simp

/-- The round trip through formatting, joining and re-parsing yields
each number rounded to 4 decimal places. -/
theorem parseInput_formatJoin (l : List ℚ) :
    parseInput (formatJoin l) = l.map round4 := by
  cases l with
  | nil => rfl
  | cons q0 l0 =>
    have htoks : (q0 :: l0).map (fun q => ((formatNumber (some q)).getD "").data) =
        (q0 :: l0).map (fun q => renderQ q) :=
      List.map_congr_left fun q _ => by rw [formatNumber_eq_renderQ]; rfl
    rw [formatJoin, htoks]
    set toks := (q0 :: l0).map (fun q => renderQ q) with htoksdef
    have hprops : ∀ t ∈ toks, t ≠ [] ∧ ∀ c ∈ t, isDelim c = false := by
      intro t ht
      obtain ⟨q, -, rfl⟩ := List.mem_map.mp ht
      exact ⟨renderQ_ne_nil q, renderQ_no_delim q⟩
    have hne : toks ≠ [] := by rw [htoksdef]; simp
    have hjoin_ne : joinTokens toks ≠ [] := by
      rw [htoksdef]
      obtain ⟨c, cs, hc⟩ : ∃ c cs, renderQ q0 = c :: cs := by
        rcases hh : renderQ q0 with _ | ⟨c, cs⟩
        · exact absurd hh (renderQ_ne_nil q0)
        · exact ⟨c, cs, rfl⟩
      rw [List.map_cons, hc]
      obtain ⟨rest, hrest⟩ := joinTokens_cons_head c cs _
      rw [hrest]
      simp
    have hs_ne : String.mk (joinTokens toks) ≠ "" := fun hs =>
      hjoin_ne (by simpa using congrArg String.data hs)
    have hm1 : toks.map jsTrim = toks := by
      rw [htoksdef, List.map_map]
      exact List.map_congr_left fun q _ =>
        jsTrim_eq_self (renderQ q) (renderQ_no_delim q)
    have hm2 : toks.filter (fun x => decide (x ≠ [])) = toks :=
      List.filter_eq_self.mpr fun t ht => by simp [(hprops t ht).1]
    have hm3 : toks.map jsParseFloat =
        (q0 :: l0).map (fun q => JsVal.num (round4 q)) := by
      rw [htoksdef, List.map_map]
      exact List.map_congr_left fun q _ => jsParseFloat_renderQ q
    have hm4 : ((q0 :: l0).map (fun q => JsVal.num (round4 q))).filter
        isFiniteVal = (q0 :: l0).map (fun q => JsVal.num (round4 q)) :=
      List.filter_eq_self.mpr fun v hv => by
        obtain ⟨q, -, rfl⟩ := List.mem_map.mp hv
        rfl
    have hm5 : ((q0 :: l0).map (fun q => JsVal.num (round4 q))).filterMap
        (fun v => match v with | JsVal.num q => some q | _ => none) =
        (q0 :: l0).map round4 := by
      rw [List.filterMap_map]
      rw [show ((fun v => match v with | JsVal.num q => some q | _ => none) ∘
        fun q => JsVal.num (round4 q)) = some ∘ round4 from funext fun q => rfl]
      rw [List.filterMap_eq_map]
    simp only [parseInput, if_neg hs_ne]
    rw [jsSplit_joinTokens toks hne hprops, hm1, hm2, hm3, hm4, hm5]

/-- C7 (amended): re-parsing the formatted, comma-joined numbers of a
parsed Sample reproduces the numeric sequence *rounded to 4 decimal
places* (the formatter's precision) — in particular it reproduces the
sequence exactly iff every parsed number has at most 4 decimal
places. -/
theorem parse_format_roundtrip (s : String) :
    parseInput (formatJoin (parseInput s)) = (parseInput s).map round4 :=
  parseInput_formatJoin (parseInput s)

/-- C7 counterexample: the raw input `"0.12345"` parses to
`[0.12345]`, but formatting rounds to 4 decimal places, so re-parsing
the formatted join yields `[0.1235] ≠ [0.12345]`. -/
theorem parse_format_roundtrip_cex :
    parseInput "0.12345" = [2469/20000] ∧
    parseInput (formatJoin (parseInput "0.12345")) = [247/2000] ∧
    ((2469/20000 : ℚ) ≠ 247/2000) := by
  have h1 : parseInput "0.12345" = [2469/20000] := by
    rw [parseInput, if_neg (by decide)]
    simp only [show ("0.12345" : String).data =
      ['0', '.', '1', '2', '3', '4', '5'] from rfl]
    simp +decide [jsSplit, jsSplitGo, jsTrim, jsParseFloat, parseUnsigned,
      parseExponent, digitsToNat, digitVal, isDigitCh, isDelim, isFiniteVal]
    norm_num
  refine ⟨h1, ?_, by norm_num⟩
  rw [parseInput_formatJoin, h1]
  simp only [List.map_cons, List.map_nil]
  rw [round4, show (2469/20000 : ℚ) * 10000 + 1/2 = ((1235 : ℤ) : ℚ) by
    norm_num, Int.floor_intCast]
  norm_num

/-! ## C2: what the two parsers keep -/

/-- Fusing calculator.js's parse/filter pipeline tail: mapping
`parseFloat` and keeping finite values is extracting the finite
prefix-parse of each token. -/
theorem filterMap_extract (ts : List (List Char)) :
    ((ts.map jsParseFloat).filter isFiniteVal).filterMap
      (fun v => match v with | JsVal.num q => some q | _ => none) =
    ts.filterMap
      (fun t => match jsParseFloat t with | JsVal.num q => some q | _ => none) := by
  induction ts with
  | nil => rfl
  | cons t ts ih =>
    rw [List.map_cons, List.filterMap_cons]
    cases hv : jsParseFloat t with
    | num q => simp [isFiniteVal, ih]
    | inf b => simp [isFiniteVal, ih]
    | nan => simp [isFiniteVal, ih]

/-- C2 (amended): calculator.js's `parseInput` keeps, for each
non-empty trimmed token, exactly the finite value of the token's
longest numeric prefix under `parseFloat` — so a leading non-numeric
character invalidates a token (the parse is `NaN`), but trailing
non-numeric characters after a valid prefix are ignored and the prefix
value is kept, with `NaN`/infinite parses filtered out; statistics.js's
`parseInput` instead performs a strict whole-token `Number` conversion
(so `"12abc"` is discarded) but applies no finiteness filter, so an
`"Infinity"` token's infinite value does appear in its output. -/
theorem parseInput_spec :
    (∀ s : String, parseInput s =
      (((jsSplit s.data).map jsTrim).filter (· ≠ [])).filterMap
        (fun t => match jsParseFloat t with | JsVal.num q => some q | _ => none)) ∧
    (∀ (c : Char) (t : List Char), isDigitCh c = false → c ≠ '+' → c ≠ '-' →
      c ≠ '.' → c ≠ 'I' → jsParseFloat (c :: t) = .nan) ∧
    (∀ s : String, statsParseInput s =
      ((jsSplit s.data).map jsTrim).filterMap
        (fun t => if t ≠ [] then
          match jsNumber t with | JsVal.nan => none | v => some v
        else none)) ∧
    statsParseInput "Infinity" = [JsVal.inf true] ∧
    statsParseInput "12abc" = [] := by
  refine ⟨?_, ?_, ?_, ?_, ?_⟩
  · intro s
    by_cases hs : s = ""
    · subst hs
      simp [parseInput, jsSplit, jsSplitGo, jsTrim]
    · rw [parseInput, if_neg hs]
      exact filterMap_extract _
  · intro c t hdig hplus hminus hdot hI
    rw [jsParseFloat, if_neg hplus, if_neg hminus, parseUnsigned]
    rw [if_neg (by rw [take_ne_infinity hI]; exact not_false)]
    rw [List.takeWhile_cons_of_neg (by simp [hdig]),
      List.dropWhile_cons_of_neg (by simp [hdig])]
    split
    all_goals try rfl
    all_goals simp_all
  · intro s
    by_cases hs : s = ""
    · subst hs
      simp [statsParseInput, jsSplit, jsSplitGo, jsTrim]
    · rw [statsParseInput, if_neg hs]
  · rw [statsParseInput, if_neg (by decide)]
    simp only [show ("Infinity" : String).data =
      ['I', 'n', 'f', 'i', 'n', 'i', 't', 'y'] from rfl]
    simp +decide [jsSplit, jsSplitGo, jsTrim, jsNumber, isDelim]
  · rw [statsParseInput, if_neg (by decide)]
    simp only [show ("12abc" : String).data = ['1', '2', 'a', 'b', 'c'] from rfl]
    simp +decide [jsSplit, jsSplitGo, jsTrim, jsNumber, isDelim,
      parseDecimalWhole, parseExpWhole, isDigitCh, digitsToNat, digitVal]

/-- Witness for the leading-non-numeric conjunct of `parseInput_spec`
at the token `"a1"`. -/
theorem parseInput_spec_witness :
    jsParseFloat ('a' :: ['1']) = .nan :=
  parseInput_spec.2.1 'a' ['1'] (by decide) (by decide) (by decide) (by decide)
    (by decide)

/-- C2 counterexample: the token `"12abc"` has trailing non-numeric
characters, yet calculator.js's `parseInput` keeps it as `12`
(`parseFloat` prefix extraction), instead of discarding it as the
claim's strict-parse rule requires. -/
theorem parseInput_trailing_garbage_cex :
    parseInput "12abc" = [12] ∧ parseInput "12abc" ≠ [] := by
  have h : parseInput "12abc" = [12] := by
    rw [parseInput, if_neg (by decide)]
    simp only [show ("12abc" : String).data = ['1', '2', 'a', 'b', 'c'] from rfl]
    simp +decide [jsSplit, jsSplitGo, jsTrim, jsParseFloat, parseUnsigned,
      parseExponent, digitsToNat, digitVal, isDigitCh, isDelim, isFiniteVal]
  exact ⟨h, by rw [h]; simp⟩

end Statify
